import Mathlib

/-!
# pghole_scanner: page-cache hole scanner

A shallow embedding of `src/pghole_scanner.c`.

* `pgoff_t`, `unsigned long` and `size_t` are 64-bit words: values are naturals below
  `ULONG_MOD` and `+`, `-`, `++` wrap (`uadd`, `usub`).
* `xa_load` on the file's `i_pages` is an arbitrary total function from an index to an
  `XaEntry`; the test `folio && !xa_is_value(folio)` is `is_folio`.
* The two `do { ... } while (...)` loops are `left_scan` and `right_scan`, recursive on a fuel
  argument; `scan` runs them with one unit of fuel per value of the offset word.
-/

namespace PgholeScanner

/-! ## Machine words -/

/-- Number of values of an `unsigned long` (`pgoff_t`, `size_t`): `2 ^ 64`. -/
def ULONG_MOD : Nat := 18446744073709551616

/-- Unsigned word addition `a + b`. -/
def uadd (a b : Nat) : Nat := (a + b) % ULONG_MOD

/-- Unsigned word subtraction `a - b` (for `b` a word). -/
def usub (a b : Nat) : Nat := (a + ULONG_MOD - b) % ULONG_MOD

/-! ## The residency index -/

/-- What `xa_load` returns for a page-cache slot: `NULL`, a value entry (shadow or swap
entry, `xa_is_value`), or a pointer to a folio. -/
inductive XaEntry where
  | null
  | value
  | folio
  deriving DecidableEq, Repr

/-- The hit test `folio && !xa_is_value(folio)`. -/
def is_folio : XaEntry → Bool
  | XaEntry.folio => true
  | _ => false

/-! ## find_pg_hole -/

/-- The local variables of `find_pg_hole` that the two probes update. -/
structure ScanState where
  missing_page : Nat
  left_offset : Nat
  right_offset : Nat
  left_hit : Bool
  right_hit : Bool
  deriving DecidableEq, Repr

/-- The initialisers of `find_pg_hole`: `missing_page = 1`, offsets `0`, hit flags `0`. -/
def init_state : ScanState :=
  { missing_page := 1, left_offset := 0, right_offset := 0, left_hit := false, right_hit := false }

/-- The left `do { ... } while (0 < index - left_offset && left_offset < ra_pages / 2)`
loop; `none` when the fuel runs out before the loop exits. -/
def left_scan (xa_load : Nat → XaEntry) (index ra_pages : Nat) : Nat → ScanState → Option ScanState
  | 0, _ => none
  | fuel + 1, s =>
    let s1 := { s with left_offset := uadd s.left_offset 1 }
    if is_folio (xa_load (usub index s1.left_offset)) then
      some { s1 with left_hit := true }
    else
      let s2 := { s1 with missing_page := uadd s1.missing_page 1 }
      if 0 < usub index s2.left_offset ∧ s2.left_offset < ra_pages / 2 then
        left_scan xa_load index ra_pages fuel s2
      else
        some s2

/-- The right `do { ... } while (index + right_offset < total_pages - 1 &&
right_offset < ra_pages / 2 - 1)` loop; `none` when the fuel runs out before the loop exits. -/
def right_scan (xa_load : Nat → XaEntry) (index total_pages ra_pages : Nat) :
    Nat → ScanState → Option ScanState
  | 0, _ => none
  | fuel + 1, s =>
    let s1 := { s with right_offset := uadd s.right_offset 1 }
    if is_folio (xa_load (uadd index s1.right_offset)) then
      some { s1 with right_hit := true }
    else
      let s2 := { s1 with missing_page := uadd s1.missing_page 1 }
      if uadd index s2.right_offset < usub total_pages 1 ∧
          s2.right_offset < usub (ra_pages / 2) 1 then
        right_scan xa_load index total_pages ra_pages fuel s2
      else
        some s2

/-- The two probes of `find_pg_hole` for a missing page `index`, an extent of `total_pages`
pages and a readahead window of `ra_pages` pages: the left loop, then the right loop. -/
def scan (xa_load : Nat → XaEntry) (index total_pages ra_pages : Nat) : Option ScanState :=
  (left_scan xa_load index ra_pages ULONG_MOD init_state).bind
    (right_scan xa_load index total_pages ra_pages ULONG_MOD)

/-- Printed as "Left offset": `index - left_offset`. -/
def left_boundary (index : Nat) (s : ScanState) : Nat := usub index s.left_offset

/-- Printed as "Right offset": `index + right_offset`. -/
def right_boundary (index : Nat) (s : ScanState) : Nat := uadd index s.right_offset

/-- First number of "hole range": `index - left_offset + left_hit`. -/
def hole_start (index : Nat) (s : ScanState) : Nat :=
  uadd (usub index s.left_offset) s.left_hit.toNat

/-- Second number of "hole range": `index + right_offset - right_hit`. -/
def hole_end (index : Nat) (s : ScanState) : Nat :=
  usub (uadd index s.right_offset) s.right_hit.toNat

/-- The accessor of the worked scenario: pages 9 and 21 are in the cache, nothing else is. -/
def scenario_cache (i : Nat) : XaEntry :=
  if i = 9 ∨ i = 21 then XaEntry.folio else XaEntry.null

/-- The file handed to `find_pg_hole`, as far as the function reads it: `f_inode->i_size`,
`f_mapping->host->i_sb->s_bdi->ra_pages` and the xarray `f_mapping->i_pages`. -/
structure File where
  i_size : Nat
  ra_pages : Nat
  i_pages : Nat → XaEntry

/-- The computation of `total_pages`: `i_size >> PAGE_SHIFT`, plus
`!!(i_size & ~PAGE_MASK)`. `PAGE_SHIFT` comes from the kernel headers and is a parameter;
`~PAGE_MASK` is `PAGE_SIZE - 1`, that is `2 ^ PAGE_SHIFT - 1`. -/
def total_pages (PAGE_SHIFT i_size : Nat) : Nat :=
  uadd (i_size >>> PAGE_SHIFT) (if i_size &&& (2 ^ PAGE_SHIFT - 1) ≠ 0 then 1 else 0)

/-- The body of `find_pg_hole`, with `pgoff_t index = 16`; the result is the state the
`printk` lines report. -/
def find_pg_hole (PAGE_SHIFT : Nat) (file : File) : Option ScanState :=
  scan file.i_pages 16 (total_pages PAGE_SHIFT file.i_size) file.ra_pages

/-! ## pghole_scanner_write -/

/-- Size of `user_input_buffer` less one. -/
def MAX_PATH_LEN : Nat := 256

/-- The errno `EINVAL`. -/
def EINVAL : Int := 22

/-- The kernel services `pghole_scanner_write` calls, as the outcomes they give:
`copy_from_user` gives the number of bytes it could not copy, `kern_path` gives 0 or a
negative errno for a path name, and `dentry_open` gives the opened file or the errno of an
`ERR_PTR`. -/
structure Kernel where
  PAGE_SHIFT : Nat
  copy_from_user : Nat → Nat
  kern_path : List Nat → Int
  dentry_open : List Nat → Except Int File

/-- The calls and stores `pghole_scanner_write` makes, in program order. -/
inductive KCall where
  | copy_from_user (count : Nat)
  | store_nul (i : Nat)
  | kern_path
  | dentry_open
  | find_pg_hole
  | fput
  | path_put
  deriving DecidableEq, Repr

/-- What one call of `pghole_scanner_write` leaves behind: the returned `ssize_t`, the calls
made, `user_input_buffer`, and what `find_pg_hole` reported when it ran. -/
structure WriteResult where
  ret : Int
  trace : List KCall
  user_input_buffer : List Nat
  report : Option ScanState
  deriving DecidableEq, Repr

/-- The buffer after `copy_from_user` stored the first `n` bytes of `src` in it. -/
def copy_bytes (dst src : List Nat) (n : Nat) : List Nat :=
  (List.range dst.length).map fun i => if i < n then src.getD i 0 else dst.getD i 0

/-- The buffer after `copy_from_user(dst, src, count)` returned `ret`, the number of bytes
it could not copy: the first `count - ret` bytes come from `src`, and the kernel fills the
rest of the `count` bytes with zeros. -/
def copy_from_user_bytes (dst src : List Nat) (count ret : Nat) : List Nat :=
  (List.range dst.length).map fun i =>
    if i < count - ret then src.getD i 0 else if i < count then 0 else dst.getD i 0

/-- The C string at the start of a buffer: the bytes before the first NUL. -/
def c_string (buf : List Nat) : List Nat := buf.takeWhile fun b => b ≠ 0

/-- The write handler `pghole_scanner_write(file, buffer, count, pos)`: `user_input_buffer`
is the static buffer as the call finds it, `buffer` the user's bytes. The `printk` lines are
left out. The result is `none` only if `find_pg_hole` does not return. -/
def pghole_scanner_write (k : Kernel) (user_input_buffer buffer : List Nat) (count : Nat) :
    Option WriteResult :=
  if count > MAX_PATH_LEN then
    some { ret := -EINVAL, trace := [], user_input_buffer := user_input_buffer, report := none }
  else
    let ret := k.copy_from_user count
    let buf1 := copy_from_user_bytes user_input_buffer buffer count ret
    let t1 := [KCall.copy_from_user count]
    if ret ≠ 0 then
      some { ret := ret, trace := t1, user_input_buffer := buf1, report := none }
    else
      let buf2 := buf1.set (usub count 1) 0
      let t2 := t1 ++ [KCall.store_nul (usub count 1)]
      let ret := k.kern_path (c_string buf2)
      let t3 := t2 ++ [KCall.kern_path]
      if ret ≠ 0 then
        some { ret := ret, trace := t3, user_input_buffer := buf2, report := none }
      else
        match k.dentry_open (c_string buf2) with
        | Except.error e =>
          some { ret := e, trace := t3 ++ [KCall.dentry_open], user_input_buffer := buf2,
                 report := none }
        | Except.ok file_to_scan =>
          (find_pg_hole k.PAGE_SHIFT file_to_scan).map fun r =>
            { ret := count,
              trace := t3 ++ [KCall.dentry_open, KCall.find_pg_hole, KCall.fput, KCall.path_put],
              user_input_buffer := buf2, report := some r }

/-- An index with nothing in the cache: every `xa_load` is `NULL`. -/
def empty_cache (_ : Nat) : XaEntry := XaEntry.null

/-- An index in which page 17, the right neighbour of the target 16, is the only page in
the cache. -/
def right_neighbour_cache (i : Nat) : XaEntry :=
  if i = 17 then XaEntry.folio else XaEntry.null

/-- A kernel in which every copy and every path resolution succeeds and every open fails
with `-EACCES`. -/
def unopenable_kernel : Kernel :=
  { PAGE_SHIFT := 12, copy_from_user := fun _ => 0, kern_path := fun _ => 0,
    dentry_open := fun _ => Except.error (-13) }

/-- The scenario accessor with the target page 16 in the cache as well. -/
def resident_target_cache (i : Nat) : XaEntry :=
  if i = 16 then XaEntry.folio else scenario_cache i

/-- A file of 100 pages of 4096 bytes with a readahead window of 10 pages and the scenario
accessor as its page cache. -/
def scenario_file : File :=
  { i_size := 409600, ra_pages := 10, i_pages := scenario_cache }

/-- A kernel in which every copy, every path resolution and every open succeeds, the open
giving `scenario_file`. -/
def openable_kernel : Kernel :=
  { PAGE_SHIFT := 12, copy_from_user := fun _ => 0, kern_path := fun _ => 0,
    dentry_open := fun _ => Except.ok scenario_file }

/-- The left loop with its `xa_load` calls logged: the indices `index - left_offset` it
passes to `xa_load`, in order. -/
def left_scan_queries (xa_load : Nat → XaEntry) (index ra_pages : Nat) :
    Nat → ScanState → List Nat
  | 0, _ => []
  | fuel + 1, s =>
    let s1 := { s with left_offset := uadd s.left_offset 1 }
    if is_folio (xa_load (usub index s1.left_offset)) then
      [usub index s1.left_offset]
    else
      let s2 := { s1 with missing_page := uadd s1.missing_page 1 }
      if 0 < usub index s2.left_offset ∧ s2.left_offset < ra_pages / 2 then
        usub index s1.left_offset :: left_scan_queries xa_load index ra_pages fuel s2
      else
        [usub index s1.left_offset]

/-- The right loop with its `xa_load` calls logged: the indices `index + right_offset` it
passes to `xa_load`, in order. -/
def right_scan_queries (xa_load : Nat → XaEntry) (index total_pages ra_pages : Nat) :
    Nat → ScanState → List Nat
  | 0, _ => []
  | fuel + 1, s =>
    let s1 := { s with right_offset := uadd s.right_offset 1 }
    if is_folio (xa_load (uadd index s1.right_offset)) then
      [uadd index s1.right_offset]
    else
      let s2 := { s1 with missing_page := uadd s1.missing_page 1 }
      if uadd index s2.right_offset < usub total_pages 1 ∧
          s2.right_offset < usub (ra_pages / 2) 1 then
        uadd index s1.right_offset ::
          right_scan_queries xa_load index total_pages ra_pages fuel s2
      else
        [uadd index s1.right_offset]

/-- Every index `scan` passes to `xa_load`: the left loop's queries, then those of the right
loop entered in the state the left loop leaves. -/
def scan_queries (xa_load : Nat → XaEntry) (index total_pages ra_pages : Nat) : List Nat :=
  left_scan_queries xa_load index ra_pages ULONG_MOD init_state ++
    match left_scan xa_load index ra_pages ULONG_MOD init_state with
    | none => []
    | some m => right_scan_queries xa_load index total_pages ra_pages ULONG_MOD m

/-! ## Loop postconditions -/

/-- What the left loop establishes when it exits in state `r`, having been entered in `s`. -/
structure LeftPost (xa_load : Nat → XaEntry) (index ra_pages : Nat) (s r : ScanState) : Prop where
  right_offset_eq : r.right_offset = s.right_offset
  right_hit_eq : r.right_hit = s.right_hit
  entered : s.left_offset < r.left_offset
  budget : r.left_offset ≤ max (s.left_offset + 1) (ra_pages / 2)
  earlier : ∀ j, s.left_offset < j → j < r.left_offset →
    is_folio (xa_load (usub index j)) = false ∧ 0 < usub index j ∧ j < ra_pages / 2
  on_hit : r.left_hit = true → is_folio (xa_load (usub index r.left_offset)) = true ∧
    r.missing_page = uadd s.missing_page (r.left_offset - s.left_offset - 1)
  on_miss : r.left_hit = false → is_folio (xa_load (usub index r.left_offset)) = false ∧
    r.missing_page = uadd s.missing_page (r.left_offset - s.left_offset) ∧
    ¬ (0 < usub index r.left_offset ∧ r.left_offset < ra_pages / 2)

/-- What the right loop establishes when it exits in state `r`, having been entered in `s`. -/
structure RightPost (xa_load : Nat → XaEntry) (index total_pages ra_pages : Nat)
    (s r : ScanState) : Prop where
  left_offset_eq : r.left_offset = s.left_offset
  left_hit_eq : r.left_hit = s.left_hit
  entered : s.right_offset < r.right_offset
  budget : r.right_offset ≤ max (s.right_offset + 1) (usub (ra_pages / 2) 1)
  earlier : ∀ j, s.right_offset < j → j < r.right_offset →
    is_folio (xa_load (uadd index j)) = false ∧ uadd index j < usub total_pages 1 ∧
      j < usub (ra_pages / 2) 1
  on_hit : r.right_hit = true → is_folio (xa_load (uadd index r.right_offset)) = true ∧
    r.missing_page = uadd s.missing_page (r.right_offset - s.right_offset - 1)
  on_miss : r.right_hit = false → is_folio (xa_load (uadd index r.right_offset)) = false ∧
    r.missing_page = uadd s.missing_page (r.right_offset - s.right_offset) ∧
    ¬ (uadd index r.right_offset < usub total_pages 1 ∧
        r.right_offset < usub (ra_pages / 2) 1)

/-! ## Loop lemmas -/

theorem usub_lt (a b : Nat) : usub a b < ULONG_MOD :=
  Nat.mod_lt _ (by decide)

theorem uadd_lt (a b : Nat) : uadd a b < ULONG_MOD :=
  Nat.mod_lt _ (by decide)

theorem uadd_one_eq (a : Nat) (h : a + 1 < ULONG_MOD) : uadd a 1 = a + 1 :=
  Nat.mod_eq_of_lt h

theorem uadd_zero_eq (a : Nat) (h : a < ULONG_MOD) : uadd a 0 = a :=
  Nat.mod_eq_of_lt h

theorem uadd_uadd_one (m k : Nat) : uadd (uadd m 1) k = uadd m (k + 1) := by
  simp only [uadd, ULONG_MOD]
  omega

/-- One more step of a probe: the count of a hit that comes `d` steps later. -/
theorem uadd_step_hit (m a b : Nat) (h : a + 1 < b) :
    uadd (uadd m 1) (b - (a + 1) - 1) = uadd m (b - a - 1) := by
  rw [uadd_uadd_one]
  congr 1
  omega

/-- One more step of a probe: the count of a miss that comes `d` steps later. -/
theorem uadd_step_miss (m a b : Nat) (h : a + 1 < b) :
    uadd (uadd m 1) (b - (a + 1)) = uadd m (b - a) := by
  rw [uadd_uadd_one]
  congr 1
  omega

theorem left_scan_exits (xa_load : Nat → XaEntry) (index ra_pages : Nat)
    (hW : ra_pages / 2 < ULONG_MOD) :
    ∀ (fuel : Nat) (s : ScanState), s.left_hit = false → s.missing_page < ULONG_MOD →
      (s.left_offset = 0 ∨ s.left_offset < ra_pages / 2) →
      1 ≤ fuel → ra_pages / 2 ≤ s.left_offset + fuel →
      ∃ r, left_scan xa_load index ra_pages fuel s = some r ∧
        LeftPost xa_load index ra_pages s r := by
  intro fuel
  induction fuel with
  | zero => intro s _ _ _ h1 _; exact absurd h1 (by decide)
  | succ n ih =>
    intro s hhit hm hoff _ hfuel
    have hadd : uadd s.left_offset 1 = s.left_offset + 1 := by
      apply uadd_one_eq
      clear * - hoff hW
      simp only [ULONG_MOD] at *
      omega
    unfold left_scan
    simp only [hadd]
    by_cases hq : is_folio (xa_load (usub index (s.left_offset + 1))) = true
    · simp only [hq, if_true]
      refine ⟨_, rfl, ?_⟩
      constructor
      · rfl
      · rfl
      · exact Nat.lt_succ_self _
      · exact le_max_left _ _
      · intro j h1 h2
        exact absurd h2 (Nat.not_lt.mpr h1)
      · intro _
        refine ⟨hq, ?_⟩
        show s.missing_page = uadd s.missing_page (s.left_offset + 1 - s.left_offset - 1)
        have : s.left_offset + 1 - s.left_offset - 1 = 0 := by omega
        rw [this, uadd_zero_eq _ hm]
      · intro h
        exact Bool.noConfusion h
    · simp only [hq, Bool.false_eq_true, if_false]
      have hq2 : is_folio (xa_load (usub index (s.left_offset + 1))) = false := by
        simpa using hq
      by_cases hc : 0 < usub index (s.left_offset + 1) ∧ s.left_offset + 1 < ra_pages / 2
      · simp only [hc, and_self, if_true]
        have hc2 := hc.2
        obtain ⟨r, hr, hp⟩ := ih { s with left_offset := s.left_offset + 1,
                                          missing_page := uadd s.missing_page 1 }
          hhit (uadd_lt _ _) (Or.inr hc.2)
          (by clear * - hc2 hfuel; omega)
          (by show ra_pages / 2 ≤ s.left_offset + 1 + n; clear * - hfuel; omega)
        refine ⟨r, hr, ?_⟩
        have hent : s.left_offset + 1 < r.left_offset := hp.entered
        have hbud : r.left_offset ≤ max (s.left_offset + 1 + 1) (ra_pages / 2) := hp.budget
        constructor
        · exact hp.right_offset_eq
        · exact hp.right_hit_eq
        · exact Nat.lt_of_succ_lt hent
        · clear * - hbud hc2; omega
        · intro j h1 h2
          by_cases hj : j = s.left_offset + 1
          · subst hj; exact ⟨hq2, hc.1, hc.2⟩
          · exact hp.earlier j (by show s.left_offset + 1 < j; clear * - h1 hj; omega) h2
        · intro h
          obtain ⟨h1, h2⟩ := hp.on_hit h
          refine ⟨h1, ?_⟩
          rw [h2]
          exact uadd_step_hit _ _ _ hent
        · intro h
          obtain ⟨h1, h2, h3⟩ := hp.on_miss h
          refine ⟨h1, ?_, h3⟩
          rw [h2]
          exact uadd_step_miss _ _ _ hent
      · simp only [hc, if_false]
        refine ⟨_, rfl, ?_⟩
        constructor
        · rfl
        · rfl
        · exact Nat.lt_succ_self _
        · exact le_max_left _ _
        · intro j h1 h2
          exact absurd h2 (Nat.not_lt.mpr h1)
        · intro h
          have h2 : s.left_hit = true := h
          rw [hhit] at h2
          exact Bool.noConfusion h2
        · intro _
          refine ⟨hq2, ?_, hc⟩
          show uadd s.missing_page 1 = uadd s.missing_page (s.left_offset + 1 - s.left_offset)
          have : s.left_offset + 1 - s.left_offset = 1 := by omega
          rw [this]

theorem right_scan_exits (xa_load : Nat → XaEntry) (index total_pages ra_pages : Nat) :
    ∀ (fuel : Nat) (s : ScanState), s.right_hit = false → s.missing_page < ULONG_MOD →
      (s.right_offset = 0 ∨ s.right_offset < usub (ra_pages / 2) 1) →
      1 ≤ fuel → usub (ra_pages / 2) 1 ≤ s.right_offset + fuel →
      ∃ r, right_scan xa_load index total_pages ra_pages fuel s = some r ∧
        RightPost xa_load index total_pages ra_pages s r := by
  intro fuel
  induction fuel with
  | zero => intro s _ _ _ h1 _; exact absurd h1 (by decide)
  | succ n ih =>
    intro s hhit hm hoff _ hfuel
    have hadd : uadd s.right_offset 1 = s.right_offset + 1 := by
      apply uadd_one_eq
      have hL := usub_lt (ra_pages / 2) 1
      clear * - hoff hL
      generalize usub (ra_pages / 2) 1 = L at *
      simp only [ULONG_MOD] at *
      omega
    unfold right_scan
    simp only [hadd]
    by_cases hq : is_folio (xa_load (uadd index (s.right_offset + 1))) = true
    · simp only [hq, if_true]
      refine ⟨_, rfl, ?_⟩
      constructor
      · rfl
      · rfl
      · exact Nat.lt_succ_self _
      · exact le_max_left _ _
      · intro j h1 h2
        exact absurd h2 (Nat.not_lt.mpr h1)
      · intro _
        refine ⟨hq, ?_⟩
        show s.missing_page = uadd s.missing_page (s.right_offset + 1 - s.right_offset - 1)
        have : s.right_offset + 1 - s.right_offset - 1 = 0 := by omega
        rw [this, uadd_zero_eq _ hm]
      · intro h
        exact Bool.noConfusion h
    · simp only [hq, Bool.false_eq_true, if_false]
      have hq2 : is_folio (xa_load (uadd index (s.right_offset + 1))) = false := by
        simpa using hq
      by_cases hc : uadd index (s.right_offset + 1) < usub total_pages 1 ∧
          s.right_offset + 1 < usub (ra_pages / 2) 1
      · simp only [hc, and_self, if_true]
        have hc2 := hc.2
        obtain ⟨r, hr, hp⟩ := ih { s with right_offset := s.right_offset + 1,
                                          missing_page := uadd s.missing_page 1 }
          hhit (uadd_lt _ _) (Or.inr hc.2)
          (by clear * - hc2 hfuel; generalize usub (ra_pages / 2) 1 = L at *; omega)
          (by show usub (ra_pages / 2) 1 ≤ s.right_offset + 1 + n
              clear * - hfuel; generalize usub (ra_pages / 2) 1 = L at *; omega)
        refine ⟨r, hr, ?_⟩
        have hent : s.right_offset + 1 < r.right_offset := hp.entered
        have hbud : r.right_offset ≤ max (s.right_offset + 1 + 1) (usub (ra_pages / 2) 1) :=
          hp.budget
        constructor
        · exact hp.left_offset_eq
        · exact hp.left_hit_eq
        · exact Nat.lt_of_succ_lt hent
        · clear * - hbud hc2; generalize usub (ra_pages / 2) 1 = L at *; omega
        · intro j h1 h2
          by_cases hj : j = s.right_offset + 1
          · subst hj; exact ⟨hq2, hc.1, hc.2⟩
          · exact hp.earlier j (by show s.right_offset + 1 < j; clear * - h1 hj; omega) h2
        · intro h
          obtain ⟨h1, h2⟩ := hp.on_hit h
          refine ⟨h1, ?_⟩
          rw [h2]
          exact uadd_step_hit _ _ _ hent
        · intro h
          obtain ⟨h1, h2, h3⟩ := hp.on_miss h
          refine ⟨h1, ?_, h3⟩
          rw [h2]
          exact uadd_step_miss _ _ _ hent
      · simp only [hc, if_false]
        refine ⟨_, rfl, ?_⟩
        constructor
        · rfl
        · rfl
        · exact Nat.lt_succ_self _
        · exact le_max_left _ _
        · intro j h1 h2
          exact absurd h2 (Nat.not_lt.mpr h1)
        · intro h
          have h2 : s.right_hit = true := h
          rw [hhit] at h2
          exact Bool.noConfusion h2
        · intro _
          refine ⟨hq2, ?_, hc⟩
          show uadd s.missing_page 1 = uadd s.missing_page (s.right_offset + 1 - s.right_offset)
          have : s.right_offset + 1 - s.right_offset = 1 := by omega
          rw [this]

/-- Both loops exit within the fuel `scan` gives them, the left one in a state `m` and the
right one, entered in `m`, in the result `r`. -/
theorem scan_exits (xa_load : Nat → XaEntry) (index total_pages ra_pages : Nat)
    (hW : ra_pages < ULONG_MOD) :
    ∃ m r, scan xa_load index total_pages ra_pages = some r ∧
      LeftPost xa_load index ra_pages init_state m ∧
      RightPost xa_load index total_pages ra_pages m r := by
  have hW2 : ra_pages / 2 < ULONG_MOD := Nat.lt_of_le_of_lt (Nat.div_le_self _ _) hW
  obtain ⟨m, hm, hl⟩ := left_scan_exits xa_load index ra_pages hW2 ULONG_MOD init_state rfl
    (by decide) (Or.inl rfl) (by decide)
    (by show ra_pages / 2 ≤ 0 + ULONG_MOD; rw [Nat.zero_add]; exact Nat.le_of_lt hW2)
  have hmm : m.missing_page < ULONG_MOD := by
    cases h : m.left_hit
    · rw [(hl.on_miss h).2.1]; exact uadd_lt _ _
    · rw [(hl.on_hit h).2]; exact uadd_lt _ _
  have hro : m.right_offset = 0 := hl.right_offset_eq
  have hrh : m.right_hit = false := hl.right_hit_eq
  obtain ⟨r, hr, hp⟩ := right_scan_exits xa_load index total_pages ra_pages ULONG_MOD m hrh hmm
    (Or.inl hro) (by decide)
    (by rw [hro, Nat.zero_add]; exact Nat.le_of_lt (usub_lt _ _))
  exact ⟨m, r, by unfold scan; rw [hm]; exact hr, hl, hp⟩

theorem usub_eq_sub (a b : Nat) (hb : b ≤ a) (ha : a < ULONG_MOD) : usub a b = a - b := by
  simp only [usub, ULONG_MOD] at *
  omega

theorem usub_wrap (a b : Nat) (hab : a < b) :
    usub a b = a + ULONG_MOD - b := by
  simp only [usub, ULONG_MOD] at *
  omega

theorem uadd_eq_add (a b : Nat) (h : a + b < ULONG_MOD) : uadd a b = a + b :=
  Nat.mod_eq_of_lt h

theorem usub_self (a : Nat) (ha : a < ULONG_MOD) : usub a a = 0 := by
  rw [usub_eq_sub a a (Nat.le_refl _) ha, Nat.sub_self]

theorem LeftPost.left_offset_le {xa_load : Nat → XaEntry} {index ra_pages : Nat} {s r : ScanState}
    (hp : LeftPost xa_load index ra_pages s r) (b : Nat) (hb : s.left_offset < b)
    (hstop : ¬ (0 < usub index b ∧ b < ra_pages / 2)) : r.left_offset ≤ b := by
  by_contra hlt
  have := hp.earlier b hb (Nat.lt_of_not_le hlt)
  exact hstop ⟨this.2.1, this.2.2⟩

theorem RightPost.right_offset_le {xa_load : Nat → XaEntry} {index total_pages ra_pages : Nat}
    {s r : ScanState} (hp : RightPost xa_load index total_pages ra_pages s r) (b : Nat)
    (hb : s.right_offset < b)
    (hstop : ¬ (uadd index b < usub total_pages 1 ∧ b < usub (ra_pages / 2) 1)) :
    r.right_offset ≤ b := by
  by_contra hlt
  have := hp.earlier b hb (Nat.lt_of_not_le hlt)
  exact hstop ⟨this.2.1, this.2.2⟩

/-- Away from index 0 the left offset never passes the target. -/
theorem LeftPost.offset_le_index {xa_load : Nat → XaEntry} {index ra_pages : Nat}
    {r : ScanState} (hp : LeftPost xa_load index ra_pages init_state r)
    (h1 : 1 ≤ index) (hT : index < ULONG_MOD) : r.left_offset ≤ index := by
  apply hp.left_offset_le index h1
  intro h
  rw [usub_self index hT] at h
  exact absurd h.1 (Nat.lt_irrefl 0)

/-- Inside the extent the right offset stops at the last page, or after its first step. -/
theorem RightPost.offset_le_extent {xa_load : Nat → XaEntry} {index total_pages ra_pages : Nat}
    {s r : ScanState} (hp : RightPost xa_load index total_pages ra_pages s r)
    (hs : s.right_offset = 0) (hN : total_pages < ULONG_MOD) (hT : index < total_pages) :
    r.right_offset ≤ max 1 (total_pages - 1 - index) := by
  apply hp.right_offset_le _ (by rw [hs]; exact Nat.lt_of_lt_of_le Nat.zero_lt_one (le_max_left _ _))
  intro h
  have h1 := h.1
  rw [usub_eq_sub total_pages 1 (Nat.succ_le_of_lt (Nat.lt_of_le_of_lt (Nat.zero_le _) hT)) hN,
    uadd_eq_add _ _ (by clear * - hN hT; simp only [ULONG_MOD] at *; omega)] at h1
  clear * - h1 hT
  omega

/-- More fuel does not change what the left loop returns. -/
theorem left_scan_fuel_mono (xa_load : Nat → XaEntry) (index ra_pages : Nat) :
    ∀ (fuel : Nat) (s r : ScanState), left_scan xa_load index ra_pages fuel s = some r →
      ∀ k, left_scan xa_load index ra_pages (fuel + k) s = some r := by
  intro fuel
  induction fuel with
  | zero => intro s r h; simp [left_scan] at h
  | succ n ih =>
    intro s r h k
    rw [Nat.add_right_comm]
    unfold left_scan at h ⊢
    dsimp only at h ⊢
    split at h
    · rename_i hq; rw [if_pos hq]; exact h
    · rename_i hq
      rw [if_neg hq]
      split at h
      · rename_i hc; rw [if_pos hc]; exact ih _ _ h k
      · rename_i hc; rw [if_neg hc]; exact h

/-- More fuel does not change what the right loop returns. -/
theorem right_scan_fuel_mono (xa_load : Nat → XaEntry) (index total_pages ra_pages : Nat) :
    ∀ (fuel : Nat) (s r : ScanState),
      right_scan xa_load index total_pages ra_pages fuel s = some r →
      ∀ k, right_scan xa_load index total_pages ra_pages (fuel + k) s = some r := by
  intro fuel
  induction fuel with
  | zero => intro s r h; simp [right_scan] at h
  | succ n ih =>
    intro s r h k
    rw [Nat.add_right_comm]
    unfold right_scan at h ⊢
    dsimp only at h ⊢
    split at h
    · rename_i hq; rw [if_pos hq]; exact h
    · rename_i hq
      rw [if_neg hq]
      split at h
      · rename_i hc; rw [if_pos hc]; exact ih _ _ h k
      · rename_i hc; rw [if_neg hc]; exact h

/-- A run of the two loops on less fuel than `scan` gives them is the result of `scan`. -/
theorem scan_of_fuel {xa_load : Nat → XaEntry} {index total_pages ra_pages : Nat}
    {m r : ScanState} (f1 f2 : Nat) (h1 : f1 ≤ ULONG_MOD) (h2 : f2 ≤ ULONG_MOD)
    (hl : left_scan xa_load index ra_pages f1 init_state = some m)
    (hr : right_scan xa_load index total_pages ra_pages f2 m = some r) :
    scan xa_load index total_pages ra_pages = some r := by
  have e1 := left_scan_fuel_mono xa_load index ra_pages f1 _ _ hl (ULONG_MOD - f1)
  have e2 := right_scan_fuel_mono xa_load index total_pages ra_pages f2 _ _ hr (ULONG_MOD - f2)
  rw [Nat.add_sub_cancel' h1] at e1
  rw [Nat.add_sub_cancel' h2] at e2
  unfold scan
  rw [e1]
  exact e2

/-- The worked scenario evaluated: both probes run out of window budget. -/
theorem scenario_cache_absent (i : Nat) (h : (10 ≤ i ∧ i ≤ 15) ∨ (17 ≤ i ∧ i ≤ 20)) :
    is_folio (scenario_cache i) = false := by
  have hne : ¬ (i = 9 ∨ i = 21) := by omega
  simp [scenario_cache, hne, is_folio]

theorem uadd_one_uadd (a b : Nat) : uadd (uadd 1 a) b = (1 + a + b) % ULONG_MOD := by
  simp only [uadd, ULONG_MOD]
  omega

/-- The left loop's count, entered with the initial count 1. -/
theorem LeftPost.left_missing_page_eq {xa_load : Nat → XaEntry} {index ra_pages : Nat}
    {m : ScanState} (hl : LeftPost xa_load index ra_pages init_state m) :
    m.missing_page = uadd 1 (m.left_offset - m.left_hit.toNat) := by
  cases h : m.left_hit
  · exact (hl.on_miss h).2.1
  · have h2 : m.missing_page = uadd 1 (m.left_offset - 0 - 1) := (hl.on_hit h).2
    rw [h2, Nat.sub_zero]
    rfl

/-- The count after both loops, in word arithmetic: the initial 1 plus one for every step
that was not a hit. -/
theorem missing_page_eq {xa_load : Nat → XaEntry} {index total_pages ra_pages : Nat}
    {m r : ScanState} (hl : LeftPost xa_load index ra_pages init_state m)
    (hp : RightPost xa_load index total_pages ra_pages m r) :
    r.missing_page = (1 + (r.left_offset - r.left_hit.toNat) +
      (r.right_offset - r.right_hit.toNat)) % ULONG_MOD := by
  have hro : m.right_offset = 0 := hl.right_offset_eq
  rw [hp.left_offset_eq, hp.left_hit_eq, ← uadd_one_uadd, ← hl.left_missing_page_eq]
  cases h : r.right_hit
  · have h2 := (hp.on_miss h).2.1
    rw [hro, Nat.sub_zero] at h2
    exact h2
  · have h2 := (hp.on_hit h).2
    rw [hro, Nat.sub_zero] at h2
    exact h2

/-- The loop budgets of a finished scan as plain bounds on the two offsets. -/
theorem offsets_le_budget {xa_load : Nat → XaEntry} {index total_pages ra_pages : Nat}
    {m r : ScanState} (hl : LeftPost xa_load index ra_pages init_state m)
    (hp : RightPost xa_load index total_pages ra_pages m r) :
    (1 ≤ r.left_offset ∧ r.left_offset ≤ max 1 (ra_pages / 2)) ∧
    (1 ≤ r.right_offset ∧ r.right_offset ≤ max 1 (usub (ra_pages / 2) 1)) := by
  have hro : m.right_offset = 0 := hl.right_offset_eq
  have h1 : 0 < m.left_offset := hl.entered
  have h2 : m.left_offset ≤ max (0 + 1) (ra_pages / 2) := hl.budget
  have h3 := hp.entered
  have h4 := hp.budget
  rw [hro] at h3 h4
  rw [Nat.zero_add] at h2 h4
  rw [hp.left_offset_eq]
  exact ⟨⟨h1, h2⟩, ⟨Nat.lt_of_le_of_lt (Nat.zero_le _) h3, h4⟩⟩

/-! ## Claims -/

/-- C1 (as amended): with `N = 100`, `index = 16`, `W = 10`, pages 10..15 and 17..20 absent
and pages 9 and 21 resident, both probes run out of window budget before reaching a resident
page: the left offset is 5 (boundary 11, miss), the right offset is 4 (boundary 20, miss), and
10 pages are counted missing. -/
theorem scenario_scan (xa_load : Nat → XaEntry)
    (habsent : ∀ i, (10 ≤ i ∧ i ≤ 15) ∨ (17 ≤ i ∧ i ≤ 20) → is_folio (xa_load i) = false)
    (_h9 : is_folio (xa_load 9) = true) (_h21 : is_folio (xa_load 21) = true) :
    ∃ r, scan xa_load 16 100 10 = some r ∧
      left_boundary 16 r = 11 ∧ r.left_hit = false ∧
      right_boundary 16 r = 20 ∧ r.right_hit = false ∧ r.missing_page = 10 := by
  have e15 := habsent 15 (by omega)
  have e14 := habsent 14 (by omega)
  have e13 := habsent 13 (by omega)
  have e12 := habsent 12 (by omega)
  have e11 := habsent 11 (by omega)
  have e17 := habsent 17 (by omega)
  have e18 := habsent 18 (by omega)
  have e19 := habsent 19 (by omega)
  have e20 := habsent 20 (by omega)
  refine ⟨⟨10, 5, 4, false, false⟩, ?_, by decide, rfl, by decide, rfl, rfl⟩
  have hl : left_scan xa_load 16 10 5 init_state = some ⟨6, 5, 0, false, false⟩ := by
    simp [left_scan, init_state, uadd, usub, ULONG_MOD, e15, e14, e13, e12, e11]
  have hr : right_scan xa_load 16 100 10 4 ⟨6, 5, 0, false, false⟩ =
      some ⟨10, 5, 4, false, false⟩ := by
    simp [right_scan, uadd, usub, ULONG_MOD, e17, e18, e19, e20]
  exact scan_of_fuel 5 4 (by decide) (by decide) hl hr

/-- C1 witness: the scenario accessor `scenario_cache` meets the scenario's conditions and
the scan of it gives boundaries 11 and 20, no hit, and 10 missing pages. -/
theorem scenario_scan_witness :
    ∃ r, scan scenario_cache 16 100 10 = some r ∧
      left_boundary 16 r = 11 ∧ r.left_hit = false ∧
      right_boundary 16 r = 20 ∧ r.right_hit = false ∧ r.missing_page = 10 :=
  scenario_scan scenario_cache scenario_cache_absent (by decide) (by decide)

/-- C1 counterexample: `scenario_cache` has pages 10..15 and 17..20 absent and pages 9 and 21
resident, and the scan of it with `N = 100`, `index = 16`, `W = 10` does not give
`left_boundary = 9`, `left_hit`, `right_boundary = 21`, `right_hit`, `missing_count = 13`. -/
theorem scenario_scan_not_as_stated :
    ((∀ i, (10 ≤ i ∧ i ≤ 15) ∨ (17 ≤ i ∧ i ≤ 20) → is_folio (scenario_cache i) = false) ∧
      is_folio (scenario_cache 9) = true ∧ is_folio (scenario_cache 21) = true) ∧
    ¬ ∃ r, scan scenario_cache 16 100 10 = some r ∧
      left_boundary 16 r = 9 ∧ r.left_hit = true ∧
      right_boundary 16 r = 21 ∧ r.right_hit = true ∧ r.missing_page = 13 := by
  refine ⟨⟨scenario_cache_absent, by decide, by decide⟩, ?_⟩
  have h : scan scenario_cache 16 100 10 = some ⟨10, 5, 4, false, false⟩ := by decide
  rintro ⟨r, hr, _, hhit, _⟩
  rw [h] at hr
  cases hr
  exact absurd hhit (by decide)

/-- C2 (as amended): for an extent of `N > 0` pages and a target `T` in `[0, N-1]` the right
boundary satisfies `T < right_boundary ≤ N`, with `right_boundary < N` when `T` is not the
last page, and the left boundary satisfies `0 ≤ left_boundary < T` when `T` is not page 0. -/
theorem boundaries_in_extent (xa_load : Nat → XaEntry) (T N W : Nat)
    (hW : W < ULONG_MOD) (hN : N < ULONG_MOD) (hT : T < N) :
    ∃ r, scan xa_load T N W = some r ∧
      T < right_boundary T r ∧ right_boundary T r ≤ N ∧
      (T + 1 < N → right_boundary T r < N) ∧
      (1 ≤ T → 0 ≤ left_boundary T r ∧ left_boundary T r < T) := by
  obtain ⟨m, r, hr, hl, hp⟩ := scan_exits xa_load T N W hW
  have hro : r.right_offset ≤ max 1 (N - 1 - T) :=
    hp.offset_le_extent hl.right_offset_eq hN hT
  have hent : 0 < r.right_offset := Nat.lt_of_le_of_lt (Nat.zero_le _) hp.entered
  have hrb : right_boundary T r = T + r.right_offset := by
    apply uadd_eq_add
    clear * - hro hT hN
    simp only [ULONG_MOD] at *
    omega
  refine ⟨r, hr, ?_, ?_, ?_, ?_⟩ <;> try rw [hrb]
  · clear * - hent; omega
  · clear * - hro hT; omega
  · clear * - hro hT; omega
  · intro h1
    have hlo : r.left_offset ≤ T := by
      rw [hp.left_offset_eq]
      exact hl.offset_le_index h1 (Nat.lt_trans hT hN)
    have hle : 0 < r.left_offset := by
      rw [hp.left_offset_eq]
      exact Nat.lt_of_le_of_lt (Nat.zero_le _) hl.entered
    have hlb : left_boundary T r = T - r.left_offset :=
      usub_eq_sub T _ hlo (Nat.lt_trans hT hN)
    rw [hlb]
    clear * - hlo hle
    omega

/-- C2 witness: an extent of 100 pages, the target 16 and a window of 10, on the scenario
accessor. -/
theorem boundaries_in_extent_witness :
    ∃ r, scan scenario_cache 16 100 10 = some r ∧
      16 < right_boundary 16 r ∧ right_boundary 16 r ≤ 100 ∧
      (16 + 1 < 100 → right_boundary 16 r < 100) ∧
      (1 ≤ 16 → 0 ≤ left_boundary 16 r ∧ left_boundary 16 r < 16) :=
  boundaries_in_extent scenario_cache 16 100 10 (by decide) (by decide) (by decide)

/-- C2 counterexample: with one page and target 0 on an empty cache the left boundary is
above the target (it wraps), and with two pages and target 1 the right boundary is `N`
(window 10 in both); so `0 ≤ left_boundary ≤ T ≤ right_boundary < N` fails at both ends of
the extent. -/
theorem boundaries_outside_extent :
    (∃ r, scan empty_cache 0 1 10 = some r ∧ ¬ left_boundary 0 r ≤ 0) ∧
    (∃ r, scan empty_cache 1 2 10 = some r ∧ ¬ right_boundary 1 r < 2) :=
  ⟨⟨⟨7, 5, 1, false, false⟩, by decide, by decide⟩,
   ⟨⟨3, 1, 1, false, false⟩, by decide, by decide⟩⟩

/-- The count of a finished scan: in 64-bit word arithmetic it is 1 plus the number of steps
of both probes that were not a hit, and exactly so, with a count of at least 1, when the
window is at least 2, or the target lies in an extent of fewer than `2 ^ 64 - 1` pages, or
the target is at least 2 and not the last word value. -/
theorem scan_missing_page (xa_load : Nat → XaEntry) (T N W : Nat)
    (hW : W < ULONG_MOD) :
    ∃ r, scan xa_load T N W = some r ∧
      r.missing_page = (1 + (r.left_offset - r.left_hit.toNat) +
        (r.right_offset - r.right_hit.toNat)) % ULONG_MOD ∧
      ((2 ≤ W ∨ (T < N ∧ N + 1 < ULONG_MOD) ∨ (2 ≤ T ∧ T + 1 < ULONG_MOD)) →
        1 ≤ r.missing_page ∧
        r.missing_page = 1 + (r.left_offset - r.left_hit.toNat) +
          (r.right_offset - r.right_hit.toNat)) := by
  obtain ⟨m, r, hr, hl, hp⟩ := scan_exits xa_load T N W hW
  have heq := missing_page_eq hl hp
  refine ⟨r, hr, heq, ?_⟩
  intro h
  obtain ⟨⟨hl1, hl2⟩, hr1, hr2⟩ := offsets_le_budget hl hp
  have hro : m.right_offset = 0 := hl.right_offset_eq
  have hL := usub_lt (W / 2) 1
  have hfit : 1 + (r.left_offset - r.left_hit.toNat) +
      (r.right_offset - r.right_hit.toNat) < ULONG_MOD := by
    have hlt : r.left_offset - r.left_hit.toNat ≤ r.left_offset := Nat.sub_le _ _
    have hrt : r.right_offset - r.right_hit.toNat ≤ r.right_offset := Nat.sub_le _ _
    by_cases hW2 : 2 ≤ W
    · rw [usub_eq_sub (W / 2) 1 (by clear * - hW2; omega)
        (Nat.lt_of_le_of_lt (Nat.div_le_self _ _) hW)] at hr2
      clear * - hW hW2 hl2 hr2 hlt hrt
      simp only [ULONG_MOD] at *
      omega
    · have hbound : r.right_offset + 2 < ULONG_MOD := by
        rcases h with h | h | h
        · exact absurd h hW2
        · have h3 := hp.offset_le_extent hro (Nat.lt_of_succ_lt h.2) h.1
          clear * - h3 h
          simp only [ULONG_MOD] at *
          omega
        · have h3 : r.right_offset ≤ ULONG_MOD - 1 - T := by
            apply hp.right_offset_le _ (by rw [hro]; clear * - h; simp only [ULONG_MOD] at *; omega)
            intro hc
            have h1 := hc.1
            have h2 := usub_lt N 1
            rw [uadd_eq_add _ _ (by clear * - h; simp only [ULONG_MOD] at *; omega)] at h1
            clear * - h1 h2 h
            generalize usub N 1 = E at *
            simp only [ULONG_MOD] at *
            omega
          clear * - h3 h
          simp only [ULONG_MOD] at *
          omega
      clear * - hbound hW2 hl2 hlt hrt
      simp only [ULONG_MOD] at *
      omega
  rw [Nat.mod_eq_of_lt hfit] at heq
  exact ⟨by rw [heq]; clear * - heq; omega, heq⟩

/-- C3: `missing_page` is at least 1 and is exactly 1 plus the number of steps of both probes
that were not a hit, `1 + (left_offset - left_hit) + (right_offset - right_hit)`, a hit step
adding nothing. This holds for `find_pg_hole`, whose index is 16, on every file, and for the
scan of any target when the window is at least 2, or the target lies in an extent of fewer
than `2 ^ 64 - 1` pages, or the target is at least 2 and not the last word value; in 64-bit
word arithmetic the equality holds for every target, extent and window. -/
theorem missing_page_counts_misses (xa_load : Nat → XaEntry) (T N W : Nat)
    (hW : W < ULONG_MOD) :
    (∃ r, scan xa_load T N W = some r ∧
      r.missing_page = (1 + (r.left_offset - r.left_hit.toNat) +
        (r.right_offset - r.right_hit.toNat)) % ULONG_MOD ∧
      ((2 ≤ W ∨ (T < N ∧ N + 1 < ULONG_MOD) ∨ (2 ≤ T ∧ T + 1 < ULONG_MOD)) →
        1 ≤ r.missing_page ∧
        r.missing_page = 1 + (r.left_offset - r.left_hit.toNat) +
          (r.right_offset - r.right_hit.toNat))) ∧
    (∀ (PAGE_SHIFT : Nat) (file : File), file.ra_pages < ULONG_MOD →
      ∃ r, find_pg_hole PAGE_SHIFT file = some r ∧
        1 ≤ r.missing_page ∧
        r.missing_page = 1 + (r.left_offset - r.left_hit.toNat) +
          (r.right_offset - r.right_hit.toNat)) := by
  refine ⟨scan_missing_page xa_load T N W hW, ?_⟩
  intro PAGE_SHIFT file hra
  obtain ⟨r, hr, _, h⟩ := scan_missing_page file.i_pages 16
    (total_pages PAGE_SHIFT file.i_size) file.ra_pages hra
  exact ⟨r, hr, h (Or.inr (Or.inr ⟨by decide, by decide⟩))⟩

/-- C3 witness: the target 16 in an extent of 100 pages with window 10 on the scenario
accessor, and `find_pg_hole` on the scenario file. -/
theorem missing_page_counts_misses_witness :
    (∃ r, scan scenario_cache 16 100 10 = some r ∧
      r.missing_page = (1 + (r.left_offset - r.left_hit.toNat) +
        (r.right_offset - r.right_hit.toNat)) % ULONG_MOD ∧
      1 ≤ r.missing_page ∧
      r.missing_page = 1 + (r.left_offset - r.left_hit.toNat) +
        (r.right_offset - r.right_hit.toNat)) ∧
    (∃ r, find_pg_hole 12 scenario_file = some r ∧
      1 ≤ r.missing_page ∧
      r.missing_page = 1 + (r.left_offset - r.left_hit.toNat) +
        (r.right_offset - r.right_hit.toNat)) :=
  let ⟨⟨r, h1, h2, h3⟩, hfile⟩ :=
    missing_page_counts_misses scenario_cache 16 100 10 (by decide)
  ⟨⟨r, h1, h2, h3 (Or.inl (by decide))⟩, hfile 12 scenario_file (by decide)⟩

/-- C4 (as amended): if every index in `[max(0, T - W/2), min(N-1, T + W/2 - 1)]` is
absent, then for `W ≥ 2` and `T ≥ 1` the left probe misses and stops after
`min(W/2, T)` steps, and for `W ≥ 4` and `T + 1 < N` the right probe misses and stops after
`min(W/2 - 1, N - 1 - T)` steps. -/
theorem absent_window_no_hit (xa_load : Nat → XaEntry) (T N W : Nat)
    (hW : W < ULONG_MOD) (hN : N < ULONG_MOD) (hT : T < N)
    (habsent : ∀ i, max 0 (T - W / 2) ≤ i → i ≤ min (N - 1) (T + W / 2 - 1) →
      is_folio (xa_load i) = false) :
    ∃ r, scan xa_load T N W = some r ∧
      (2 ≤ W → 1 ≤ T → r.left_hit = false ∧ r.left_offset = min (W / 2) T) ∧
      (4 ≤ W → T + 1 < N →
        r.right_hit = false ∧ r.right_offset = min (W / 2 - 1) (N - 1 - T)) := by
  obtain ⟨m, r, hr, hl, hp⟩ := scan_exits xa_load T N W hW
  obtain ⟨⟨hl1, hl2⟩, hr1, hr2⟩ := offsets_le_budget hl hp
  have hTM : T < ULONG_MOD := Nat.lt_trans hT hN
  have hW2M : W / 2 < ULONG_MOD := Nat.lt_of_le_of_lt (Nat.div_le_self _ _) hW
  refine ⟨r, hr, ?_, ?_⟩
  · intro hW2 h1
    have hlo : r.left_offset ≤ T := by
      rw [hp.left_offset_eq]; exact hl.offset_le_index h1 hTM
    have hsub : usub T r.left_offset = T - r.left_offset := usub_eq_sub T _ hlo hTM
    have hin : is_folio (xa_load (usub T r.left_offset)) = false := by
      rw [hsub]
      apply habsent
      · clear * - hl2 hW2; omega
      · clear * - hl1 hT hW2 h1; omega
    have hmiss : r.left_hit = false := by
      cases h : r.left_hit
      · rfl
      · rw [hp.left_hit_eq] at h
        have := (hl.on_hit h).1
        rw [← hp.left_offset_eq, hin] at this
        exact Bool.noConfusion this
    refine ⟨hmiss, ?_⟩
    rw [hp.left_hit_eq] at hmiss
    have hexit := (hl.on_miss hmiss).2.2
    rw [← hp.left_offset_eq, hsub] at hexit
    clear * - hexit hlo hl1 hl2 hW2
    omega
  · intro hW4 hT1
    have hL : usub (W / 2) 1 = W / 2 - 1 :=
      usub_eq_sub _ 1 (by clear * - hW4; omega) hW2M
    have hE : usub N 1 = N - 1 := usub_eq_sub _ 1 (by clear * - hT; omega) hN
    rw [hL] at hr2
    have hro := hp.offset_le_extent hl.right_offset_eq hN hT
    have hadd : uadd T r.right_offset = T + r.right_offset := by
      apply uadd_eq_add
      clear * - hro hT hN
      simp only [ULONG_MOD] at *
      omega
    have hin : is_folio (xa_load (uadd T r.right_offset)) = false := by
      rw [hadd]
      apply habsent
      · clear * - hr1; omega
      · clear * - hr2 hro hT1 hW4; omega
    have hmiss : r.right_hit = false := by
      cases h : r.right_hit
      · rfl
      · have := (hp.on_hit h).1
        rw [hin] at this
        exact Bool.noConfusion this
    refine ⟨hmiss, ?_⟩
    have hexit := (hp.on_miss hmiss).2.2
    rw [hadd, hL, hE] at hexit
    clear * - hexit hro hr1 hr2 hT1 hW4
    omega

/-- C4 witness: an empty cache, the target 16 in an extent of 100 pages, window 10: the left
probe takes 5 steps and the right probe 4, both without a hit. -/
theorem absent_window_no_hit_witness :
    ∃ r, scan empty_cache 16 100 10 = some r ∧
      (r.left_hit = false ∧ r.left_offset = min (10 / 2) 16) ∧
      (r.right_hit = false ∧ r.right_offset = min (10 / 2 - 1) (100 - 1 - 16)) :=
  let ⟨r, h1, h2, h3⟩ := absent_window_no_hit empty_cache 16 100 10 (by decide) (by decide)
    (by decide) (fun _ _ _ => rfl)
  ⟨r, h1, h2 (by decide) (by decide), h3 (by decide) (by decide)⟩

/-- C4 counterexample: with target 16, 100 pages and window 2, every index of the window
`[15, 16]` is absent in `right_neighbour_cache`, and the right probe, whose first step
queries index 17, returns a hit. -/
theorem absent_window_right_hit :
    (∀ i, max 0 (16 - 2 / 2) ≤ i → i ≤ min (100 - 1) (16 + 2 / 2 - 1) →
      is_folio (right_neighbour_cache i) = false) ∧
    ∃ r, scan right_neighbour_cache 16 100 2 = some r ∧ r.right_hit = true := by
  refine ⟨?_, ⟨2, 1, 1, false, true⟩, by decide, rfl⟩
  intro i _ h2
  have hne : ¬ i = 17 := by
    have : min (100 - 1) (16 + 2 / 2 - 1) = 16 := by decide
    rw [this] at h2
    omega
  simp [right_neighbour_cache, hne, is_folio]

/-- C5 (the code at the failing input): with a readahead window of one page the right limit
`ra_pages / 2 - 1` wraps to `2 ^ 64 - 1`, and on an empty cache the right probe from the
target 16 in an extent of 30 pages takes 13 steps, to the last page, which is more than
`max(1, W/2 - 1)` and more than `W`. -/
theorem right_probe_exceeds_window :
    usub (1 / 2) 1 = 18446744073709551615 ∧
    ∃ r, scan empty_cache 16 30 1 = some r ∧ r.right_offset = 13 ∧
      ¬ r.right_offset ≤ max 1 (1 / 2 - 1) ∧ ¬ r.right_offset ≤ 1 :=
  ⟨by decide, ⟨15, 1, 13, false, false⟩, by decide, by decide, by decide, by decide⟩

set_option maxRecDepth 100000 in
/-- C6 (the code at the failing input): a write of the path `/a` whose resolution succeeds
and whose open fails returns the open error after `kern_path` and `dentry_open` and nothing
else: `path_put` is not called, so the path reference is not released. -/
theorem open_failure_keeps_path :
    ∃ r, pghole_scanner_write unopenable_kernel (List.replicate 257 0) [47, 97, 10] 3 = some r ∧
      r.ret = -13 ∧
      r.trace = [KCall.copy_from_user 3, KCall.store_nul 2, KCall.kern_path,
        KCall.dentry_open] ∧
      r.trace.count KCall.path_put = 0 ∧ r.trace.count KCall.fput = 0 ∧
      r.trace.count KCall.find_pg_hole = 0 :=
  ⟨⟨-13, [KCall.copy_from_user 3, KCall.store_nul 2, KCall.kern_path, KCall.dentry_open],
      [47, 97, 0] ++ List.replicate 254 0, none⟩,
    by decide, by decide, by decide, by decide, by decide, by decide⟩

/-- C8 (as amended): for the target `N - 1`, the last page of the extent, the right probe
takes exactly one step and the reported right boundary is `N`, one past the last page. -/
theorem right_probe_at_last_page (xa_load : Nat → XaEntry) (N W : Nat)
    (hW : W < ULONG_MOD) (hN : N < ULONG_MOD) (hpos : 1 ≤ N) :
    ∃ r, scan xa_load (N - 1) N W = some r ∧
      r.right_offset = 1 ∧ right_boundary (N - 1) r = N := by
  obtain ⟨m, r, hr, hl, hp⟩ := scan_exits xa_load (N - 1) N W hW
  obtain ⟨_, hr1, _⟩ := offsets_le_budget hl hp
  have hro := hp.offset_le_extent hl.right_offset_eq hN (Nat.sub_lt hpos Nat.zero_lt_one)
  have h1 : r.right_offset = 1 := by clear * - hro hr1; omega
  refine ⟨r, hr, h1, ?_⟩
  show uadd (N - 1) r.right_offset = N
  rw [h1, uadd_eq_add _ _ (by rw [Nat.sub_add_cancel hpos]; exact hN), Nat.sub_add_cancel hpos]

/-- C8 witness: the target 99 in an extent of 100 pages with window 10, on the scenario
accessor. -/
theorem right_probe_at_last_page_witness :
    ∃ r, scan scenario_cache (100 - 1) 100 10 = some r ∧
      r.right_offset = 1 ∧ right_boundary (100 - 1) r = 100 :=
  right_probe_at_last_page scenario_cache 100 10 (by decide) (by decide) (by decide)

/-- C8 counterexample: for the target 99 in an extent of 100 pages with window 10 on an
empty cache the reported right boundary is 100, which is not less than `N`. -/
theorem right_boundary_reaches_extent :
    ∃ r, scan empty_cache 99 100 10 = some r ∧ r.right_offset = 1 ∧
      ¬ right_boundary 99 r < 100 :=
  ⟨⟨7, 5, 1, false, false⟩, by decide, by decide, by decide⟩

/-- The target lies between the two boundaries of a finished scan: below the right one for
every target inside the extent, and above the left one for every target of at least 1. -/
theorem scan_target_between (xa_load : Nat → XaEntry) (T N W : Nat)
    (hW : W < ULONG_MOD) (hN : N < ULONG_MOD) (hT : T < N) :
    ∃ r, scan xa_load T N W = some r ∧
      T ≤ right_boundary T r ∧ (1 ≤ T → left_boundary T r ≤ T) := by
  obtain ⟨m, r, hr, hl, hp⟩ := scan_exits xa_load T N W hW
  have hro := hp.offset_le_extent hl.right_offset_eq hN hT
  have hrb : right_boundary T r = T + r.right_offset := by
    apply uadd_eq_add
    clear * - hro hT hN
    simp only [ULONG_MOD] at *
    omega
  refine ⟨r, hr, by rw [hrb]; exact Nat.le_add_right _ _, ?_⟩
  intro h1
  have hlo : r.left_offset ≤ T := by
    rw [hp.left_offset_eq]
    exact hl.offset_le_index h1 (Nat.lt_trans hT hN)
  have hlb : left_boundary T r = T - r.left_offset :=
    usub_eq_sub T _ hlo (Nat.lt_trans hT hN)
  rw [hlb]
  exact Nat.sub_le _ _

/-- C9: for an extent of `N ≥ 1` pages and a target `T` in `[0, N-1]`, `T ≤ right_boundary`,
and `left_boundary ≤ T` for every target of at least 1; so `find_pg_hole`, whose index is 16,
reports `left_boundary ≤ 16 ≤ right_boundary` on every file of more than 16 pages. -/
theorem target_between_boundaries (xa_load : Nat → XaEntry) (T N W : Nat)
    (hW : W < ULONG_MOD) (hN : N < ULONG_MOD) (hT : T < N) :
    (∃ r, scan xa_load T N W = some r ∧
      T ≤ right_boundary T r ∧ (1 ≤ T → left_boundary T r ≤ T)) ∧
    (∀ (PAGE_SHIFT : Nat) (file : File), file.ra_pages < ULONG_MOD →
      16 < total_pages PAGE_SHIFT file.i_size →
      ∃ r, find_pg_hole PAGE_SHIFT file = some r ∧
        left_boundary 16 r ≤ 16 ∧ 16 ≤ right_boundary 16 r) := by
  refine ⟨scan_target_between xa_load T N W hW hN hT, ?_⟩
  intro PAGE_SHIFT file hra hpages
  obtain ⟨r, hr, h1, h2⟩ := scan_target_between file.i_pages 16
    (total_pages PAGE_SHIFT file.i_size) file.ra_pages hra (uadd_lt _ _) hpages
  exact ⟨r, hr, h2 (by decide), h1⟩

/-- C9 witness: the target 16 in an extent of 100 pages with window 10 on the scenario
accessor, and `find_pg_hole` on the scenario file. -/
theorem target_between_boundaries_witness :
    (∃ r, scan scenario_cache 16 100 10 = some r ∧
      16 ≤ right_boundary 16 r ∧ left_boundary 16 r ≤ 16) ∧
    (∃ r, find_pg_hole 12 scenario_file = some r ∧
      left_boundary 16 r ≤ 16 ∧ 16 ≤ right_boundary 16 r) :=
  let ⟨⟨r, h1, h2, h3⟩, hfile⟩ :=
    target_between_boundaries scenario_cache 16 100 10 (by decide) (by decide) (by decide)
  ⟨⟨r, h1, h2, h3 (by decide)⟩, hfile 12 scenario_file (by decide) (by decide)⟩

/-- C10: for every accessor, target, extent and window both loops of `find_pg_hole` exit
within the fuel `scan` gives them, so the scan returns a result; and the result does not
depend on the fuel: any run of the two loops that exits on less fuel returns the same. -/
theorem scan_terminates (xa_load : Nat → XaEntry) (T N W : Nat) (hW : W < ULONG_MOD) :
    ∃ r, scan xa_load T N W = some r ∧
      ∀ f1 f2 m r2, f1 ≤ ULONG_MOD → f2 ≤ ULONG_MOD →
        left_scan xa_load T W f1 init_state = some m →
        right_scan xa_load T N W f2 m = some r2 → r2 = r := by
  obtain ⟨m, r, hr, _, _⟩ := scan_exits xa_load T N W hW
  refine ⟨r, hr, ?_⟩
  intro f1 f2 m2 r2 h1 h2 hl2 hr2
  have := scan_of_fuel f1 f2 h1 h2 hl2 hr2
  rw [hr] at this
  exact (Option.some.inj this).symm

/-- C10 witness: the scan of the scenario accessor with target 16, 100 pages and window 1
returns. -/
theorem scan_terminates_witness :
    ∃ r, scan scenario_cache 16 100 1 = some r ∧
      ∀ f1 f2 m r2, f1 ≤ ULONG_MOD → f2 ≤ ULONG_MOD →
        left_scan scenario_cache 16 1 f1 init_state = some m →
        right_scan scenario_cache 16 100 1 f2 m = some r2 → r2 = r :=
  scan_terminates scenario_cache 16 100 1 (by decide)

/-- Page counting on plain numbers: the quotient, plus one when there is a remainder, is the
quotient rounded up. -/
theorem div_round_up (s d : Nat) (hd : 0 < d) :
    s / d + (if s % d ≠ 0 then 1 else 0) = (s + d - 1) / d ∧
    s ≤ (s / d + (if s % d ≠ 0 then 1 else 0)) * d ∧
    (s / d + (if s % d ≠ 0 then 1 else 0)) * d < s + d := by
  have hdm := Nat.div_add_mod s d
  have hr := Nat.mod_lt s hd
  rw [Nat.mul_comm] at hdm
  by_cases h0 : s % d = 0
  · simp only [h0, ne_eq, not_true_eq_false, if_false, Nat.add_zero] at hdm ⊢
    refine ⟨(Nat.div_eq_of_lt_le ?_ ?_).symm, ?_, ?_⟩
    · clear * - hdm hd; omega
    · rw [Nat.add_mul, Nat.one_mul]; clear * - hdm hd; omega
    · clear * - hdm; omega
    · clear * - hdm hd; omega
  · simp only [h0, ne_eq, not_false_eq_true, if_true] at hdm ⊢
    have hmul : (s / d + 1) * d = s / d * d + d := by rw [Nat.add_mul, Nat.one_mul]
    refine ⟨(Nat.div_eq_of_lt_le ?_ ?_).symm, ?_, ?_⟩
    · rw [hmul]; clear * - hdm h0; omega
    · rw [Nat.add_mul, Nat.one_mul, hmul]; clear * - hdm hr; omega
    · rw [hmul]; clear * - hdm hr; omega
    · rw [hmul]; clear * - hdm h0; omega

/-- C11: for an object size `s` in the range of `loff_t`, `total_pages` is `s` divided by
the page size `2 ^ PAGE_SHIFT` rounded up; it is 0 exactly when `s = 0`, and
`s ≤ total_pages * PAGE_SIZE < s + PAGE_SIZE`. -/
theorem total_pages_round_up (PAGE_SHIFT s : Nat) (hs : s < 2 ^ 63) :
    total_pages PAGE_SHIFT s = (s + 2 ^ PAGE_SHIFT - 1) / 2 ^ PAGE_SHIFT ∧
    (total_pages PAGE_SHIFT s = 0 ↔ s = 0) ∧
    s ≤ total_pages PAGE_SHIFT s * 2 ^ PAGE_SHIFT ∧
    total_pages PAGE_SHIFT s * 2 ^ PAGE_SHIFT < s + 2 ^ PAGE_SHIFT := by
  have hd : 0 < 2 ^ PAGE_SHIFT := Nat.pos_pow_of_pos _ (by decide)
  obtain ⟨h1, h2, h3⟩ := div_round_up s (2 ^ PAGE_SHIFT) hd
  have hq : s / 2 ^ PAGE_SHIFT ≤ s := Nat.div_le_self _ _
  have hdef : total_pages PAGE_SHIFT s =
      s / 2 ^ PAGE_SHIFT + (if s % 2 ^ PAGE_SHIFT ≠ 0 then 1 else 0) := by
    unfold total_pages
    rw [Nat.shiftRight_eq_div_pow, Nat.and_pow_two_sub_one_eq_mod]
    apply uadd_eq_add
    have hi : (if s % 2 ^ PAGE_SHIFT ≠ 0 then 1 else 0) ≤ 1 := by split <;> decide
    generalize (if s % 2 ^ PAGE_SHIFT ≠ 0 then 1 else 0) = c at hi
    generalize s / 2 ^ PAGE_SHIFT = q at hq
    clear * - hi hq hs
    simp only [ULONG_MOD]
    omega
  rw [hdef]
  refine ⟨h1, ?_, h2, h3⟩
  generalize s / 2 ^ PAGE_SHIFT + (if s % 2 ^ PAGE_SHIFT ≠ 0 then 1 else 0) = c at h2 h3
  generalize 2 ^ PAGE_SHIFT = d at hd h2 h3
  constructor
  · intro hc
    rw [hc, Nat.zero_mul] at h2
    exact Nat.le_zero.mp h2
  · intro hz
    rw [hz, Nat.zero_add] at h3
    by_contra hc
    have : 1 * d ≤ c * d := Nat.mul_le_mul_right d (Nat.one_le_iff_ne_zero.mpr hc)
    rw [Nat.one_mul] at this
    exact absurd h3 (Nat.not_lt.mpr this)

/-- C11 witness: a size of 409601 bytes with 4096-byte pages is 101 pages. -/
theorem total_pages_round_up_witness :
    total_pages 12 409601 = (409601 + 2 ^ 12 - 1) / 2 ^ 12 ∧
    (total_pages 12 409601 = 0 ↔ 409601 = 0) ∧
    409601 ≤ total_pages 12 409601 * 2 ^ 12 ∧
    total_pages 12 409601 * 2 ^ 12 < 409601 + 2 ^ 12 :=
  total_pages_round_up 12 409601 (by decide)

/-- Past the length check every exit of the write handler has called `copy_from_user`
first. -/
theorem write_trace_head (k : Kernel) (user_input_buffer buffer : List Nat) (count : Nat)
    (h : ¬ count > MAX_PATH_LEN) (r : WriteResult)
    (hr : pghole_scanner_write k user_input_buffer buffer count = some r) :
    r.trace.head? = some (KCall.copy_from_user count) := by
  unfold pghole_scanner_write at hr
  rw [if_neg h] at hr
  dsimp only at hr
  split at hr
  · cases hr; rfl
  · split at hr
    · cases hr; rfl
    · split at hr
      · cases hr; rfl
      · cases hf : find_pg_hole k.PAGE_SHIFT ‹File› with
        | none => rw [hf] at hr; cases hr
        | some v => rw [hf] at hr; cases hr; rfl

/-- C12: a write of more than 256 bytes returns `-EINVAL` having made no call and left
`user_input_buffer` as it was; a write of exactly 256 bytes passes the check: whatever it
returns, it has called `copy_from_user` first. -/
theorem path_too_long_rejected (k : Kernel) (user_input_buffer buffer : List Nat) (count : Nat)
    (h : 256 < count) :
    pghole_scanner_write k user_input_buffer buffer count =
      some { ret := -EINVAL, trace := [], user_input_buffer := user_input_buffer,
             report := none } ∧
    ∀ r, pghole_scanner_write k user_input_buffer buffer 256 = some r →
      r.trace.head? = some (KCall.copy_from_user 256) := by
  constructor
  · unfold pghole_scanner_write
    rw [if_pos (show count > MAX_PATH_LEN from h)]
  · intro r hr
    exact write_trace_head k user_input_buffer buffer 256 (by decide) r hr

/-- C12 witness: a write of 257 bytes to the kernel in which everything succeeds. -/
theorem path_too_long_rejected_witness :
    pghole_scanner_write openable_kernel [1, 2, 3] [] 257 =
      some { ret := -EINVAL, trace := [], user_input_buffer := [1, 2, 3], report := none } ∧
    ∀ r, pghole_scanner_write openable_kernel [1, 2, 3] [] 256 = some r →
      r.trace.head? = some (KCall.copy_from_user 256) :=
  path_too_long_rejected openable_kernel [1, 2, 3] [] 257 (by decide)

theorem copy_bytes_length (dst src : List Nat) (n : Nat) :
    (copy_bytes dst src n).length = dst.length := by
  simp [copy_bytes]

/-- A complete copy stores the first `count` bytes of the source and nothing else. -/
theorem copy_from_user_bytes_zero (dst src : List Nat) (count : Nat) :
    copy_from_user_bytes dst src count 0 = copy_bytes dst src count := by
  unfold copy_from_user_bytes copy_bytes
  apply List.map_congr_left
  intro i _
  by_cases h : i < count <;> simp [h]

set_option maxRecDepth 100000 in
/-- C14 (the code on both exits after a successful resolution): when the copy, the
resolution and the open succeed, the handler runs `find_pg_hole` once on the opened file,
then calls `fput` once and `path_put` once and returns `count`; when the open fails, as for
the path `/dev` on the kernel whose opens all fail, the handler returns after `kern_path`
without calling `path_put`. -/
theorem release_after_resolution (k : Kernel) (user_input_buffer buffer : List Nat)
    (count : Nat) (file : File) (hcount : count ≤ 256) (hcopy : k.copy_from_user count = 0)
    (hpath : k.kern_path
      (c_string ((copy_bytes user_input_buffer buffer count).set (usub count 1) 0)) = 0)
    (hopen : k.dentry_open
      (c_string ((copy_bytes user_input_buffer buffer count).set (usub count 1) 0)) =
        Except.ok file)
    (hra : file.ra_pages < ULONG_MOD) :
    (∃ r rep, pghole_scanner_write k user_input_buffer buffer count = some r ∧
      find_pg_hole k.PAGE_SHIFT file = some rep ∧ r.report = some rep ∧ r.ret = count ∧
      r.trace = [KCall.copy_from_user count, KCall.store_nul (usub count 1), KCall.kern_path,
        KCall.dentry_open, KCall.find_pg_hole, KCall.fput, KCall.path_put]) ∧
    (∃ r, pghole_scanner_write unopenable_kernel (List.replicate 257 0)
        [47, 100, 101, 118, 10] 5 = some r ∧
      r.trace.count KCall.kern_path = 1 ∧ r.trace.count KCall.path_put = 0) := by
  constructor
  · obtain ⟨_, rep, hrep, _, _⟩ := scan_exits file.i_pages 16
      (total_pages k.PAGE_SHIFT file.i_size) file.ra_pages hra
    have hfind : find_pg_hole k.PAGE_SHIFT file = some rep := hrep
    refine ⟨{ ret := count,
              trace := [KCall.copy_from_user count, KCall.store_nul (usub count 1),
                KCall.kern_path, KCall.dentry_open, KCall.find_pg_hole, KCall.fput,
                KCall.path_put],
              user_input_buffer := (copy_bytes user_input_buffer buffer count).set
                (usub count 1) 0,
              report := some rep }, rep, ?_, hfind, rfl, rfl, rfl⟩
    unfold pghole_scanner_write
    rw [if_neg (show ¬ count > MAX_PATH_LEN from Nat.not_lt.mpr hcount)]
    simp only [hcopy, copy_from_user_bytes_zero, ne_eq, not_true_eq_false, if_false, hpath,
      hopen, hfind, Option.map_some']
    rfl
  · exact ⟨⟨-13, [KCall.copy_from_user 5, KCall.store_nul 4, KCall.kern_path,
        KCall.dentry_open], [47, 100, 101, 118, 0] ++ List.replicate 252 0, none⟩,
      by decide, by decide, by decide⟩

set_option maxRecDepth 100000 in
/-- C14 witness: the path `/dev` written to the kernel in which everything succeeds and the
open gives the scenario file. -/
theorem release_after_resolution_witness :
    (∃ r rep, pghole_scanner_write openable_kernel (List.replicate 257 0)
        [47, 100, 101, 118, 10] 5 = some r ∧
      find_pg_hole openable_kernel.PAGE_SHIFT scenario_file = some rep ∧
      r.report = some rep ∧ r.ret = (5 : Nat) ∧
      r.trace = [KCall.copy_from_user 5, KCall.store_nul (usub 5 1), KCall.kern_path,
        KCall.dentry_open, KCall.find_pg_hole, KCall.fput, KCall.path_put]) ∧
    (∃ r, pghole_scanner_write unopenable_kernel (List.replicate 257 0)
        [47, 100, 101, 118, 10] 5 = some r ∧
      r.trace.count KCall.kern_path = 1 ∧ r.trace.count KCall.path_put = 0) :=
  release_after_resolution openable_kernel (List.replicate 257 0) [47, 100, 101, 118, 10] 5
    scenario_file (by decide) rfl rfl rfl (by decide)

/-- C15: if page `target - 1` is resident, for a target of at least 1, the left probe hits
on its first step: `left_hit`, `left_offset = 1`, left boundary `target - 1`; and the step
adds nothing to the count, which is 1 plus the misses of the right probe. -/
theorem left_neighbour_resident (xa_load : Nat → XaEntry) (T N W : Nat)
    (hW : W < ULONG_MOD) (hT : T < ULONG_MOD) (h1 : 1 ≤ T)
    (hres : is_folio (xa_load (T - 1)) = true) :
    ∃ r, scan xa_load T N W = some r ∧
      r.left_hit = true ∧ r.left_offset = 1 ∧ left_boundary T r = T - 1 ∧
      r.missing_page = (1 + (r.right_offset - r.right_hit.toNat)) % ULONG_MOD := by
  obtain ⟨m, r, hr, hl, hp⟩ := scan_exits xa_load T N W hW
  obtain ⟨⟨hl1, _⟩, _, _⟩ := offsets_le_budget hl hp
  have heq := missing_page_eq hl hp
  have hsub : usub T 1 = T - 1 := usub_eq_sub T 1 h1 hT
  have hlo : r.left_offset = 1 := by
    by_contra hne
    have hgt : 1 < m.left_offset := by
      rw [← hp.left_offset_eq]; clear * - hne hl1; omega
    have hq := (hl.earlier 1 Nat.zero_lt_one hgt).1
    rw [hsub, hres] at hq
    exact Bool.noConfusion hq
  have hhit : r.left_hit = true := by
    rw [hp.left_hit_eq]
    cases h : m.left_hit
    · have hq := (hl.on_miss h).1
      rw [← hp.left_offset_eq, hlo, hsub, hres] at hq
      exact Bool.noConfusion hq
    · rfl
  refine ⟨r, hr, hhit, hlo, ?_, ?_⟩
  · show usub T r.left_offset = T - 1
    rw [hlo, hsub]
  · rw [heq, hlo, hhit]
    rfl

/-- C15 witness: the target 10 on the scenario accessor, whose page 9 is resident. -/
theorem left_neighbour_resident_witness :
    ∃ r, scan scenario_cache 10 100 10 = some r ∧
      r.left_hit = true ∧ r.left_offset = 1 ∧ left_boundary 10 r = 10 - 1 ∧
      r.missing_page = (1 + (r.right_offset - r.right_hit.toNat)) % ULONG_MOD :=
  left_neighbour_resident scenario_cache 10 100 10 (by decide) (by decide) (by decide)
    (by decide)

/-- C16: if page `target + 1` (the word `target + 1`) is resident, the right probe hits on
its first step: `right_hit`, `right_offset = 1`, right boundary `target + 1`; and the step
adds nothing to the count, which is 1 plus the misses of the left probe. -/
theorem right_neighbour_resident (xa_load : Nat → XaEntry) (T N W : Nat)
    (hW : W < ULONG_MOD) (hres : is_folio (xa_load (uadd T 1)) = true) :
    ∃ r, scan xa_load T N W = some r ∧
      r.right_hit = true ∧ r.right_offset = 1 ∧ right_boundary T r = uadd T 1 ∧
      (T + 1 < ULONG_MOD → right_boundary T r = T + 1) ∧
      r.missing_page = (1 + (r.left_offset - r.left_hit.toNat)) % ULONG_MOD := by
  obtain ⟨m, r, hr, hl, hp⟩ := scan_exits xa_load T N W hW
  obtain ⟨_, hr1, _⟩ := offsets_le_budget hl hp
  have heq := missing_page_eq hl hp
  have hro0 : m.right_offset = 0 := hl.right_offset_eq
  have hro : r.right_offset = 1 := by
    by_contra hne
    have hgt : 1 < r.right_offset := by clear * - hne hr1; omega
    have hq := (hp.earlier 1 (by rw [hro0]; exact Nat.zero_lt_one) hgt).1
    rw [hres] at hq
    exact Bool.noConfusion hq
  have hhit : r.right_hit = true := by
    cases h : r.right_hit
    · have hq := (hp.on_miss h).1
      rw [hro, hres] at hq
      exact Bool.noConfusion hq
    · rfl
  have hrb : right_boundary T r = uadd T 1 := by
    show uadd T r.right_offset = uadd T 1
    rw [hro]
  refine ⟨r, hr, hhit, hro, hrb, ?_, ?_⟩
  · intro hT
    rw [hrb, uadd_eq_add T 1 hT]
  · rw [heq, hro, hhit]
    rfl

/-- C16 witness: the target 20 on the scenario accessor, whose page 21 is resident. -/
theorem right_neighbour_resident_witness :
    ∃ r, scan scenario_cache 20 100 10 = some r ∧
      r.right_hit = true ∧ r.right_offset = 1 ∧ right_boundary 20 r = uadd 20 1 ∧
      (20 + 1 < ULONG_MOD → right_boundary 20 r = 20 + 1) ∧
      r.missing_page = (1 + (r.left_offset - r.left_hit.toNat)) % ULONG_MOD :=
  right_neighbour_resident scenario_cache 20 100 10 (by decide) (by decide)

/-- Below the last word value the right probe stops before `index + right_offset` wraps. -/
theorem RightPost.offset_le_word {xa_load : Nat → XaEntry} {index total_pages ra_pages : Nat}
    {s r : ScanState} (hp : RightPost xa_load index total_pages ra_pages s r)
    (hs : s.right_offset = 0) (hT : index + 1 < ULONG_MOD) :
    index + r.right_offset < ULONG_MOD := by
  have h3 : r.right_offset ≤ ULONG_MOD - 1 - index := by
    apply hp.right_offset_le _ (by rw [hs]; clear * - hT; simp only [ULONG_MOD] at *; omega)
    intro hc
    have h1 := hc.1
    have h2 := usub_lt total_pages 1
    rw [uadd_eq_add _ _ (by clear * - hT; simp only [ULONG_MOD] at *; omega)] at h1
    clear * - h1 h2 hT
    generalize usub total_pages 1 = E at *
    simp only [ULONG_MOD] at *
    omega
  clear * - h3 hT
  simp only [ULONG_MOD] at *
  omega

/-- The two ends of the reported hole range as plain numbers, for a target that is neither 0
nor the last word value. -/
theorem hole_range_eq {xa_load : Nat → XaEntry} {T N W : Nat} {m r : ScanState}
    (hl : LeftPost xa_load T W init_state m) (hp : RightPost xa_load T N W m r)
    (hT : T < ULONG_MOD) (h1 : 1 ≤ T) :
    r.left_offset ≤ T ∧ hole_start T r = T - r.left_offset + r.left_hit.toNat ∧
    (T + 1 < ULONG_MOD → hole_end T r = T + r.right_offset - r.right_hit.toNat) := by
  obtain ⟨⟨hl1, _⟩, hr1, _⟩ := offsets_le_budget hl hp
  have hlo : r.left_offset ≤ T := by
    rw [hp.left_offset_eq]; exact hl.offset_le_index h1 hT
  have hlh : r.left_hit.toNat ≤ 1 := Bool.toNat_le _
  have hrh : r.right_hit.toNat ≤ 1 := Bool.toNat_le _
  refine ⟨hlo, ?_, ?_⟩
  · unfold hole_start
    rw [usub_eq_sub T _ hlo hT]
    apply uadd_eq_add
    clear * - hlo hl1 hlh hT
    simp only [ULONG_MOD] at *
    omega
  · intro hw
    have hnw := hp.offset_le_word hl.right_offset_eq hw
    unfold hole_end
    rw [uadd_eq_add _ _ hnw]
    exact usub_eq_sub _ _ (by clear * - hr1 hrh; omega) hnw

/-- C17: for a target of at least 1, every index of the reported hole range
`[hole_start, hole_end]` other than the target was answered not resident by the accessor;
when `left_hit` is set the left boundary, next below the range, is resident, and when
`right_hit` is set the right boundary, next above the range, is resident. -/
theorem hole_range_sound (xa_load : Nat → XaEntry) (T N W : Nat)
    (hW : W < ULONG_MOD) (hT : T < ULONG_MOD) (h1 : 1 ≤ T) :
    ∃ r, scan xa_load T N W = some r ∧
      (∀ i, hole_start T r ≤ i → i ≤ hole_end T r → i ≠ T →
        is_folio (xa_load i) = false) ∧
      (r.left_hit = true → is_folio (xa_load (left_boundary T r)) = true ∧
        left_boundary T r + 1 = hole_start T r) ∧
      (r.right_hit = true → is_folio (xa_load (right_boundary T r)) = true ∧
        (T + 1 < ULONG_MOD → right_boundary T r = hole_end T r + 1)) := by
  obtain ⟨m, r, hr, hl, hp⟩ := scan_exits xa_load T N W hW
  obtain ⟨⟨hl1, _⟩, hr1, _⟩ := offsets_le_budget hl hp
  obtain ⟨hlo, hstart, hend⟩ := hole_range_eq hl hp hT h1
  have hro0 : m.right_offset = 0 := hl.right_offset_eq
  have hlh : r.left_hit.toNat ≤ 1 := Bool.toNat_le _
  have hrh : r.right_hit.toNat ≤ 1 := Bool.toNat_le _
  refine ⟨r, hr, ?_, ?_, ?_⟩
  · intro i hs he hne
    rcases Nat.lt_or_gt_of_ne hne with hlt | hgt
    · -- an index left of the target: the left probe queried it at offset `T - i`
      rw [hstart] at hs
      have hj : usub T (T - i) = i := by
        rw [usub_eq_sub T _ (Nat.sub_le _ _) hT]
        clear * - hlt; omega
      by_cases hjl : T - i < r.left_offset
      · have := (hl.earlier (T - i) (Nat.sub_pos_of_lt hlt)
          (by rw [← hp.left_offset_eq]; exact hjl)).1
        rw [hj] at this
        exact this
      · have hje : T - i = r.left_offset := by clear * - hjl hs hlo hlh hlt; omega
        have hmiss : r.left_hit = false := by
          cases h : r.left_hit
          · rfl
          · rw [h] at hs
            simp only [Bool.toNat_true] at hs
            clear * - hs hje hlt hlo hl1
            omega
        rw [hp.left_hit_eq] at hmiss
        have := (hl.on_miss hmiss).1
        rw [← hp.left_offset_eq, ← hje, hj] at this
        exact this
    · -- an index right of the target: the right probe queried it at offset `i - T`
      have hiM : i < ULONG_MOD := Nat.lt_of_le_of_lt he (usub_lt _ _)
      have hw : T + 1 < ULONG_MOD := Nat.lt_of_le_of_lt (Nat.succ_le_of_lt hgt) hiM
      rw [hend hw] at he
      have hj : uadd T (i - T) = i := by
        rw [uadd_eq_add _ _ (by rw [Nat.add_sub_cancel' (Nat.le_of_lt hgt)]; exact hiM)]
        exact Nat.add_sub_cancel' (Nat.le_of_lt hgt)
      by_cases hjr : i - T < r.right_offset
      · have := (hp.earlier (i - T) (by rw [hro0]; exact Nat.sub_pos_of_lt hgt) hjr).1
        rw [hj] at this
        exact this
      · have hje : i - T = r.right_offset := by clear * - hjr he hgt hrh; omega
        have hmiss : r.right_hit = false := by
          cases h : r.right_hit
          · rfl
          · rw [h] at he
            simp only [Bool.toNat_true] at he
            clear * - he hje hgt hr1
            omega
        have := (hp.on_miss hmiss).1
        rw [← hje, hj] at this
        exact this
  · intro h
    rw [hp.left_hit_eq] at h
    have hq := (hl.on_hit h).1
    rw [← hp.left_offset_eq] at hq
    refine ⟨hq, ?_⟩
    rw [hstart, hp.left_hit_eq, h]
    show usub T r.left_offset + 1 = _
    rw [usub_eq_sub T _ hlo hT]
    rfl
  · intro h
    refine ⟨(hp.on_hit h).1, ?_⟩
    intro hw
    rw [hend hw, h]
    show uadd T r.right_offset = _
    rw [uadd_eq_add _ _ (hp.offset_le_word hro0 hw)]
    simp only [Bool.toNat_true]
    clear * - hr1
    omega

/-- C17 witness: the target 10 in an extent of 100 pages with window 40 on the scenario
accessor, where the left probe hits page 9 and the right probe hits page 21. -/
theorem hole_range_sound_witness :
    ∃ r, scan scenario_cache 10 100 40 = some r ∧
      (∀ i, hole_start 10 r ≤ i → i ≤ hole_end 10 r → i ≠ 10 →
        is_folio (scenario_cache i) = false) ∧
      (r.left_hit = true → is_folio (scenario_cache (left_boundary 10 r)) = true ∧
        left_boundary 10 r + 1 = hole_start 10 r) ∧
      (r.right_hit = true → is_folio (scenario_cache (right_boundary 10 r)) = true ∧
        (10 + 1 < ULONG_MOD → right_boundary 10 r = hole_end 10 r + 1)) :=
  hole_range_sound scenario_cache 10 100 40 (by decide) (by decide) (by decide)

/-- The length of the reported hole range in word arithmetic, on plain numbers. -/
theorem hole_length_word (T lo ro a b : Nat) (ha : a ≤ lo) (hb : b ≤ ro) (hb1 : b ≤ 1)
    (hlo : lo ≤ ULONG_MOD) :
    uadd (usub (usub (uadd T ro) b) (uadd (usub T lo) a)) 1 =
      (1 + (lo - a) + (ro - b)) % ULONG_MOD := by
  simp only [uadd, usub, ULONG_MOD] at *
  omega

/-- C18: in the unsigned arithmetic of the report, `missing_page` is the length
`hole_end - hole_start + 1` of the reported hole range, for every target, extent and
window; and for a target that is neither 0 nor the last word value the range is an interval
around the target and the count is the number of its indices, modulo `2 ^ 64`. -/
theorem missing_page_is_hole_length (xa_load : Nat → XaEntry) (T N W : Nat)
    (hW : W < ULONG_MOD) :
    ∃ r, scan xa_load T N W = some r ∧
      r.missing_page = uadd (usub (hole_end T r) (hole_start T r)) 1 ∧
      (1 ≤ T → T + 1 < ULONG_MOD →
        hole_start T r ≤ T ∧ T ≤ hole_end T r ∧
        r.missing_page = (hole_end T r - hole_start T r + 1) % ULONG_MOD) := by
  obtain ⟨m, r, hr, hl, hp⟩ := scan_exits xa_load T N W hW
  obtain ⟨⟨hl1, hl2⟩, hr1, _⟩ := offsets_le_budget hl hp
  have heq := missing_page_eq hl hp
  have hlh : r.left_hit.toNat ≤ 1 := Bool.toNat_le _
  have hrh : r.right_hit.toNat ≤ 1 := Bool.toNat_le _
  have hloM : r.left_offset ≤ ULONG_MOD := by
    clear * - hl2 hW
    simp only [ULONG_MOD] at *
    omega
  refine ⟨r, hr, ?_, ?_⟩
  · rw [heq]
    exact (hole_length_word T _ _ _ _ (Nat.le_trans hlh hl1) (Nat.le_trans hrh hr1) hrh
      hloM).symm
  · intro h1 hw
    obtain ⟨hlo, hstart, hend⟩ := hole_range_eq hl hp (Nat.lt_of_succ_lt hw) h1
    rw [heq, hstart, hend hw]
    refine ⟨?_, ?_, ?_⟩
    · clear * - hlo hl1 hlh; omega
    · clear * - hr1 hrh; omega
    · congr 1
      clear * - hlo hl1 hlh hr1 hrh
      omega

/-- C18 witness: the target 16 in an extent of 100 pages with window 40 on the scenario
accessor. -/
theorem missing_page_is_hole_length_witness :
    ∃ r, scan scenario_cache 16 100 40 = some r ∧
      r.missing_page = uadd (usub (hole_end 16 r) (hole_start 16 r)) 1 ∧
      hole_start 16 r ≤ 16 ∧ 16 ≤ hole_end 16 r ∧
      r.missing_page = (hole_end 16 r - hole_start 16 r + 1) % ULONG_MOD :=
  let ⟨r, h1, h2, h3⟩ := missing_page_is_hole_length scenario_cache 16 100 40 (by decide)
  ⟨r, h1, h2, h3 (by decide) (by decide)⟩

/-- The left loop queries `index - o` for each offset `o` from the one after its entry
offset to its exit offset. -/
theorem left_scan_queries_eq (xa_load : Nat → XaEntry) (index ra_pages : Nat)
    (hW : ra_pages / 2 < ULONG_MOD) :
    ∀ (fuel : Nat) (s r : ScanState),
      (s.left_offset = 0 ∨ s.left_offset < ra_pages / 2) →
      left_scan xa_load index ra_pages fuel s = some r →
      s.left_offset < r.left_offset ∧
      left_scan_queries xa_load index ra_pages fuel s =
        (List.range' (s.left_offset + 1) (r.left_offset - s.left_offset)).map
          (fun o => usub index o) := by
  intro fuel
  induction fuel with
  | zero => intro s r _ h; simp [left_scan] at h
  | succ n ih =>
    intro s r hoff h
    have hadd : uadd s.left_offset 1 = s.left_offset + 1 := by
      apply uadd_one_eq
      clear * - hoff hW
      simp only [ULONG_MOD] at *
      omega
    unfold left_scan at h
    unfold left_scan_queries
    simp only [hadd] at h ⊢
    by_cases hq : is_folio (xa_load (usub index (s.left_offset + 1))) = true
    · rw [if_pos hq] at h ⊢
      cases h
      refine ⟨Nat.lt_succ_self _, ?_⟩
      show _ = List.map _ (List.range' (s.left_offset + 1) (s.left_offset + 1 - s.left_offset))
      rw [Nat.add_sub_cancel_left, List.range'_one]
      rfl
    · rw [if_neg hq] at h ⊢
      by_cases hc : 0 < usub index (s.left_offset + 1) ∧ s.left_offset + 1 < ra_pages / 2
      · rw [if_pos hc] at h ⊢
        obtain ⟨hlt, hqs⟩ := ih _ r (Or.inr hc.2) h
        have hlt2 : s.left_offset + 1 < r.left_offset := hlt
        refine ⟨Nat.lt_of_succ_lt hlt2, ?_⟩
        rw [hqs]
        show _ :: List.map _ (List.range' (s.left_offset + 1 + 1)
          (r.left_offset - (s.left_offset + 1))) = _
        have hk : r.left_offset - s.left_offset = r.left_offset - (s.left_offset + 1) + 1 := by
          clear * - hlt2; omega
        rw [hk, List.range'_succ, List.map_cons]
      · rw [if_neg hc] at h ⊢
        cases h
        refine ⟨Nat.lt_succ_self _, ?_⟩
        show _ = List.map _ (List.range' (s.left_offset + 1) (s.left_offset + 1 - s.left_offset))
        rw [Nat.add_sub_cancel_left, List.range'_one]
        rfl

/-- The right loop queries `index + o` for each offset `o` from the one after its entry
offset to its exit offset. -/
theorem right_scan_queries_eq (xa_load : Nat → XaEntry) (index total_pages ra_pages : Nat) :
    ∀ (fuel : Nat) (s r : ScanState),
      (s.right_offset = 0 ∨ s.right_offset < usub (ra_pages / 2) 1) →
      right_scan xa_load index total_pages ra_pages fuel s = some r →
      s.right_offset < r.right_offset ∧
      right_scan_queries xa_load index total_pages ra_pages fuel s =
        (List.range' (s.right_offset + 1) (r.right_offset - s.right_offset)).map
          (fun o => uadd index o) := by
  intro fuel
  induction fuel with
  | zero => intro s r _ h; simp [right_scan] at h
  | succ n ih =>
    intro s r hoff h
    have hadd : uadd s.right_offset 1 = s.right_offset + 1 := by
      apply uadd_one_eq
      have hL := usub_lt (ra_pages / 2) 1
      clear * - hoff hL
      generalize usub (ra_pages / 2) 1 = L at *
      simp only [ULONG_MOD] at *
      omega
    unfold right_scan at h
    unfold right_scan_queries
    simp only [hadd] at h ⊢
    by_cases hq : is_folio (xa_load (uadd index (s.right_offset + 1))) = true
    · rw [if_pos hq] at h ⊢
      cases h
      refine ⟨Nat.lt_succ_self _, ?_⟩
      show _ = List.map _
        (List.range' (s.right_offset + 1) (s.right_offset + 1 - s.right_offset))
      rw [Nat.add_sub_cancel_left, List.range'_one]
      rfl
    · rw [if_neg hq] at h ⊢
      by_cases hc : uadd index (s.right_offset + 1) < usub total_pages 1 ∧
          s.right_offset + 1 < usub (ra_pages / 2) 1
      · rw [if_pos hc] at h ⊢
        obtain ⟨hlt, hqs⟩ := ih _ r (Or.inr hc.2) h
        have hlt2 : s.right_offset + 1 < r.right_offset := hlt
        refine ⟨Nat.lt_of_succ_lt hlt2, ?_⟩
        rw [hqs]
        show _ :: List.map _ (List.range' (s.right_offset + 1 + 1)
          (r.right_offset - (s.right_offset + 1))) = _
        have hk : r.right_offset - s.right_offset =
            r.right_offset - (s.right_offset + 1) + 1 := by
          clear * - hlt2; omega
        rw [hk, List.range'_succ, List.map_cons]
      · rw [if_neg hc] at h ⊢
        cases h
        refine ⟨Nat.lt_succ_self _, ?_⟩
        show _ = List.map _
          (List.range' (s.right_offset + 1) (s.right_offset + 1 - s.right_offset))
        rw [Nat.add_sub_cancel_left, List.range'_one]
        rfl

/-- The two loops of `scan` exit, and the indices they query are `index - o` for
`1 ≤ o ≤ left_offset`, then `index + o` for `1 ≤ o ≤ right_offset`. -/
theorem scan_queries_eq (xa_load : Nat → XaEntry) (index total_pages ra_pages : Nat)
    (hW : ra_pages < ULONG_MOD) :
    ∃ m r, scan xa_load index total_pages ra_pages = some r ∧
      LeftPost xa_load index ra_pages init_state m ∧
      RightPost xa_load index total_pages ra_pages m r ∧
      left_scan_queries xa_load index ra_pages ULONG_MOD init_state =
        (List.range' 1 r.left_offset).map (fun o => usub index o) ∧
      scan_queries xa_load index total_pages ra_pages =
        (List.range' 1 r.left_offset).map (fun o => usub index o) ++
          (List.range' 1 r.right_offset).map (fun o => uadd index o) := by
  have hW2 : ra_pages / 2 < ULONG_MOD := Nat.lt_of_le_of_lt (Nat.div_le_self _ _) hW
  obtain ⟨m, hm, hl⟩ := left_scan_exits xa_load index ra_pages hW2 ULONG_MOD init_state rfl
    (by decide) (Or.inl rfl) (by decide)
    (by show ra_pages / 2 ≤ 0 + ULONG_MOD; rw [Nat.zero_add]; exact Nat.le_of_lt hW2)
  have hmm : m.missing_page < ULONG_MOD := by
    cases h : m.left_hit
    · rw [(hl.on_miss h).2.1]; exact uadd_lt _ _
    · rw [(hl.on_hit h).2]; exact uadd_lt _ _
  have hro : m.right_offset = 0 := hl.right_offset_eq
  obtain ⟨r, hr, hp⟩ := right_scan_exits xa_load index total_pages ra_pages ULONG_MOD m
    hl.right_hit_eq hmm (Or.inl hro) (by decide)
    (by rw [hro, Nat.zero_add]; exact Nat.le_of_lt (usub_lt _ _))
  have hlq := (left_scan_queries_eq xa_load index ra_pages hW2 ULONG_MOD init_state m
    (Or.inl rfl) hm).2
  have hrq := (right_scan_queries_eq xa_load index total_pages ra_pages ULONG_MOD m r
    (Or.inl hro) hr).2
  have hlq2 : left_scan_queries xa_load index ra_pages ULONG_MOD init_state =
      (List.range' 1 r.left_offset).map (fun o => usub index o) := by
    rw [hlq, hp.left_offset_eq]
    rfl
  rw [hro, Nat.zero_add, Nat.sub_zero] at hrq
  refine ⟨m, r, by unfold scan; rw [hm]; exact hr, hl, hp, hlq2, ?_⟩
  unfold scan_queries
  rw [hlq2, hm]
  simp only [hrq]

theorem usub_ne_self (T o : Nat) (h1 : 1 ≤ o) (ho : o < ULONG_MOD) :
    usub T o ≠ T := by
  simp only [usub, ULONG_MOD] at *
  omega

theorem uadd_ne_self (T o : Nat) (h1 : 1 ≤ o) (ho : o < ULONG_MOD) :
    uadd T o ≠ T := by
  simp only [uadd, ULONG_MOD] at *
  omega

/-- The left loop runs the same on two accessors that differ at the target only. -/
theorem left_scan_agree (xa1 xa2 : Nat → XaEntry) (T ra_pages : Nat)
    (hW : ra_pages / 2 < ULONG_MOD)
    (hagree : ∀ i, i ≠ T → xa1 i = xa2 i) :
    ∀ (fuel : Nat) (s : ScanState), (s.left_offset = 0 ∨ s.left_offset < ra_pages / 2) →
      left_scan xa1 T ra_pages fuel s = left_scan xa2 T ra_pages fuel s := by
  intro fuel
  induction fuel with
  | zero => intro s _; rfl
  | succ n ih =>
    intro s hoff
    have hlt : s.left_offset + 1 < ULONG_MOD := by
      clear * - hoff hW
      simp only [ULONG_MOD] at *
      omega
    have hadd : uadd s.left_offset 1 = s.left_offset + 1 := uadd_one_eq _ hlt
    have hq : xa1 (usub T (s.left_offset + 1)) = xa2 (usub T (s.left_offset + 1)) :=
      hagree _ (usub_ne_self T _ (Nat.succ_le_succ (Nat.zero_le _)) hlt)
    unfold left_scan
    simp only [hadd, hq]
    split
    · rfl
    · split
      · rename_i hc
        exact ih _ (Or.inr hc.2)
      · rfl

/-- The right loop runs the same on two accessors that differ at the target only. -/
theorem right_scan_agree (xa1 xa2 : Nat → XaEntry) (T total_pages ra_pages : Nat)
    (hagree : ∀ i, i ≠ T → xa1 i = xa2 i) :
    ∀ (fuel : Nat) (s : ScanState),
      (s.right_offset = 0 ∨ s.right_offset < usub (ra_pages / 2) 1) →
      right_scan xa1 T total_pages ra_pages fuel s =
        right_scan xa2 T total_pages ra_pages fuel s := by
  intro fuel
  induction fuel with
  | zero => intro s _; rfl
  | succ n ih =>
    intro s hoff
    have hlt : s.right_offset + 1 < ULONG_MOD := by
      have hL := usub_lt (ra_pages / 2) 1
      clear * - hoff hL
      generalize usub (ra_pages / 2) 1 = L at *
      simp only [ULONG_MOD] at *
      omega
    have hadd : uadd s.right_offset 1 = s.right_offset + 1 := uadd_one_eq _ hlt
    have hq : xa1 (uadd T (s.right_offset + 1)) = xa2 (uadd T (s.right_offset + 1)) :=
      hagree _ (uadd_ne_self T _ (Nat.succ_le_succ (Nat.zero_le _)) hlt)
    unfold right_scan
    simp only [hadd, hq]
    split
    · rfl
    · split
      · rename_i hc
        exact ih _ (Or.inr hc.2)
      · rfl

/-- C19: the scan never passes the target index to the accessor, and on two accessors that
agree on every index except the target it returns the same result. -/
theorem target_never_queried (xa1 xa2 : Nat → XaEntry) (T N W : Nat)
    (hW : W < ULONG_MOD) (hagree : ∀ i, i ≠ T → xa1 i = xa2 i) :
    (∃ r, scan xa1 T N W = some r ∧ scan xa2 T N W = some r) ∧
    T ∉ scan_queries xa1 T N W ∧ T ∉ scan_queries xa2 T N W := by
  have hW2 : W / 2 < ULONG_MOD := Nat.lt_of_le_of_lt (Nat.div_le_self _ _) hW
  have hnot : ∀ xa : Nat → XaEntry, T ∉ scan_queries xa T N W := by
    intro xa
    obtain ⟨m, r, _, hl, hp, _, hq⟩ := scan_queries_eq xa T N W hW
    obtain ⟨⟨_, hl2⟩, _, hr2⟩ := offsets_le_budget hl hp
    have hL := usub_lt (W / 2) 1
    rw [hq, List.mem_append, List.mem_map, List.mem_map]
    rintro (⟨o, ho, he⟩ | ⟨o, ho, he⟩)
    · rw [List.mem_range'_1] at ho
      refine usub_ne_self T o ho.1 ?_ he
      clear * - ho hl2 hW2
      simp only [ULONG_MOD] at *
      omega
    · rw [List.mem_range'_1] at ho
      refine uadd_ne_self T o ho.1 ?_ he
      clear * - ho hr2 hL
      generalize usub (W / 2) 1 = L at *
      simp only [ULONG_MOD] at *
      omega
  refine ⟨?_, hnot xa1, hnot xa2⟩
  obtain ⟨_, r, hr, _, _⟩ := scan_exits xa1 T N W hW
  refine ⟨r, hr, ?_⟩
  rw [← hr]
  unfold scan
  rw [left_scan_agree xa1 xa2 T W hW2 hagree ULONG_MOD init_state (Or.inl rfl)]
  obtain ⟨m, hm, hl⟩ := left_scan_exits xa2 T W hW2 ULONG_MOD init_state rfl
    (by decide) (Or.inl rfl) (by decide)
    (by show W / 2 ≤ 0 + ULONG_MOD; rw [Nat.zero_add]; exact Nat.le_of_lt hW2)
  rw [hm]
  exact (right_scan_agree xa1 xa2 T N W hagree ULONG_MOD m
    (Or.inl hl.right_offset_eq)).symm

/-- C19 witness: the target 16 on the scenario accessor and on the same accessor with page 16
resident. -/
theorem target_never_queried_witness :
    (∃ r, scan scenario_cache 16 100 10 = some r ∧
      scan resident_target_cache 16 100 10 = some r) ∧
    16 ∉ scan_queries scenario_cache 16 100 10 ∧
    16 ∉ scan_queries resident_target_cache 16 100 10 :=
  target_never_queried scenario_cache resident_target_cache 16 100 10 (by decide)
    (fun i hi => by simp [resident_target_cache, hi])

/-- C20: for an interior target, `1 ≤ T` and `T + 1 < N`, the left probe only queries
`T - o` for offsets `1 ≤ o ≤ T`, so `T - left_offset` never wraps and `left_offset ≤ T`;
every index either probe queries is at most `N - 1`; and the boundaries satisfy
`0 ≤ left_boundary < T < right_boundary ≤ N - 1`. -/
theorem interior_target_in_range (xa_load : Nat → XaEntry) (T N W : Nat)
    (hW : W < ULONG_MOD) (hN : N < ULONG_MOD) (h1 : 1 ≤ T) (h2 : T + 1 < N) :
    ∃ r, scan xa_load T N W = some r ∧
      r.left_offset ≤ T ∧
      (∀ i ∈ left_scan_queries xa_load T W ULONG_MOD init_state,
        ∃ o, 1 ≤ o ∧ o ≤ T ∧ i = T - o) ∧
      (∀ i ∈ scan_queries xa_load T N W, 0 ≤ i ∧ i ≤ N - 1) ∧
      0 ≤ left_boundary T r ∧ left_boundary T r < T ∧
      T < right_boundary T r ∧ right_boundary T r ≤ N - 1 := by
  obtain ⟨m, r, hr, hl, hp, hlq, hq⟩ := scan_queries_eq xa_load T N W hW
  obtain ⟨⟨hl1, _⟩, hr1, _⟩ := offsets_le_budget hl hp
  have hT : T < N := Nat.lt_of_succ_lt h2
  have hTM : T < ULONG_MOD := Nat.lt_trans hT hN
  have hlo : r.left_offset ≤ T := by
    rw [hp.left_offset_eq]; exact hl.offset_le_index h1 hTM
  have hro : r.right_offset ≤ N - 1 - T := by
    have := hp.offset_le_extent hl.right_offset_eq hN hT
    clear * - this h2
    omega
  have hleft : ∀ i ∈ left_scan_queries xa_load T W ULONG_MOD init_state,
      ∃ o, 1 ≤ o ∧ o ≤ T ∧ i = T - o := by
    intro i hi
    rw [hlq, List.mem_map] at hi
    obtain ⟨o, ho, he⟩ := hi
    rw [List.mem_range'_1] at ho
    have hoT : o ≤ T := by clear * - ho hlo; omega
    exact ⟨o, ho.1, hoT, by rw [← he]; exact usub_eq_sub T o hoT hTM⟩
  refine ⟨r, hr, hlo, hleft, ?_, Nat.zero_le _, ?_, ?_, ?_⟩
  · intro i hi
    refine ⟨Nat.zero_le _, ?_⟩
    rw [hq, List.mem_append] at hi
    rcases hi with hi | hi
    · obtain ⟨o, _, _, he⟩ := hleft i (by rw [hlq]; exact hi)
      clear * - he hT
      omega
    · rw [List.mem_map] at hi
      obtain ⟨o, ho, he⟩ := hi
      rw [List.mem_range'_1] at ho
      rw [uadd_eq_add _ _ (by clear * - ho hro h2 hN; simp only [ULONG_MOD] at *; omega)] at he
      clear * - he ho hro h2
      omega
  · show usub T r.left_offset < T
    rw [usub_eq_sub T _ hlo hTM]
    clear * - hl1 hlo
    omega
  · show T < uadd T r.right_offset
    rw [uadd_eq_add _ _ (by clear * - hro h2 hN; simp only [ULONG_MOD] at *; omega)]
    clear * - hr1
    omega
  · show uadd T r.right_offset ≤ N - 1
    rw [uadd_eq_add _ _ (by clear * - hro h2 hN; simp only [ULONG_MOD] at *; omega)]
    clear * - hro h2
    omega

/-- C20 witness: the target 16 in an extent of 100 pages with window 10 on the scenario
accessor. -/
theorem interior_target_in_range_witness :
    ∃ r, scan scenario_cache 16 100 10 = some r ∧
      r.left_offset ≤ 16 ∧
      (∀ i ∈ left_scan_queries scenario_cache 16 10 ULONG_MOD init_state,
        ∃ o, 1 ≤ o ∧ o ≤ 16 ∧ i = 16 - o) ∧
      (∀ i ∈ scan_queries scenario_cache 16 100 10, 0 ≤ i ∧ i ≤ 100 - 1) ∧
      0 ≤ left_boundary 16 r ∧ left_boundary 16 r < 16 ∧
      16 < right_boundary 16 r ∧ right_boundary 16 r ≤ 100 - 1 :=
  interior_target_in_range scenario_cache 16 100 10 (by decide) (by decide) (by decide)
    (by decide)

end PgholeScanner
